import Mathlib

/-!
Verification of the statistical-coding core of the `compression-algorithms`
repository (Rust).  Every definition below is a shallow embedding of a
function from the repository's sources:

* `src/src/ari/log.rs`    — `squash`, `build_stretch_table`, `stretch`;
* `src/src/ari/fpaq.rs`   — FPAQ StateMap / Apm / Predictor / coder;
* `src/src/ari/lpaq1.rs`  — LPAQ1 models, mixer, hash table, coder;
* `src/src/bufio.rs`      — the byte-stream read used by the decoders.

Conventions used throughout the embedding:

* Rust `u32`/`u64`/`usize` values are modelled as `Nat`, with `% 2^32`
  (resp. `% 2^64`) inserted exactly where the source wraps
  (`wrapping_mul`, `wrapping_add`, shifts that discard high bits).
* Rust `i32` values are modelled as `Int`; `>> k` (arithmetic shift) is
  `/ 2^k` (Lean's `Int` division is Euclidean, which floors for a
  positive divisor, matching the arithmetic shift); `& 127` on a
  (possibly negative) two's-complement value is `% 128` (`Int.emod` is
  non-negative); an `& 0xFFFF_FE00`-style mask that keeps all sign bits
  clears the 9 low bits, i.e. subtracts `x % 512`.
* Where an integer operation can wrap in release builds, the wrap is
  modelled explicitly (`% 2^32` after the corresponding operation).
* The byte-oriented model of `BufReader` follows `bufio.rs::read_` for
  `N = 1`: reading past the end of the stream yields the byte `0`
  without advancing the position and without failing.

The `next_state` bit-history table lives in `src/src/ari/state.rs`,
which is not present under `src/`; it is treated as a parameter
(`ns : Nat → Bool → Nat`) everywhere, so every theorem holds for the
actual table, whatever its entries are.
-/

set_option maxHeartbeats 4000000
set_option maxRecDepth 8000

/-! ## Generic helpers (not part of the program) -/

/-- Balanced bounded checker: `allB f fuel lo cnt` decides
`∀ i < cnt, f (lo + i)` by splitting the interval in halves, so that
kernel evaluation recurses only to depth `fuel`.  Exact for
`cnt ≤ 2 ^ fuel`. -/
def allB (f : Nat → Bool) : Nat → Nat → Nat → Bool
  | 0, lo, cnt => if cnt == 0 then true else f lo
  | fuel + 1, lo, cnt =>
    if cnt == 0 then true
    else if cnt == 1 then f lo
    else allB f fuel lo (cnt / 2) && allB f fuel (lo + cnt / 2) (cnt - cnt / 2)

theorem allB_spec (f : Nat → Bool) :
    ∀ fuel cnt lo, cnt ≤ 2 ^ fuel →
      (allB f fuel lo cnt = true ↔ ∀ i, i < cnt → f (lo + i) = true) := by
  intro fuel
  induction fuel with
  | zero =>
    intro cnt lo hcnt
    simp only [pow_zero] at hcnt
    interval_cases cnt <;> simp [allB]
  | succ n ih =>
    intro cnt lo hcnt
    by_cases h0 : cnt = 0
    · subst h0; simp [allB]
    by_cases h1 : cnt = 1
    · subst h1
      rw [show allB f (n + 1) lo 1 = f lo by simp [allB]]
      constructor
      · intro h i hi; interval_cases i; simpa using h
      · intro h; simpa using h 0 (by omega)
    have hrec : allB f (n + 1) lo cnt =
        (allB f n lo (cnt / 2) && allB f n (lo + cnt / 2) (cnt - cnt / 2)) := by
      simp [allB, h0, h1]
    rw [hrec, Bool.and_eq_true,
      ih (cnt / 2) lo (by rw [pow_succ] at hcnt; omega),
      ih (cnt - cnt / 2) (lo + cnt / 2) (by rw [pow_succ] at hcnt; omega)]
    constructor
    · rintro ⟨ha, hb⟩ i hi
      rcases Nat.lt_or_ge i (cnt / 2) with h | h
      · exact ha i h
      · have := hb (i - cnt / 2) (by omega)
        rwa [show lo + cnt / 2 + (i - cnt / 2) = lo + i by omega] at this
    · intro h
      refine ⟨fun i hi => h i (by omega), fun i hi => ?_⟩
      rw [show lo + cnt / 2 + i = lo + (cnt / 2 + i) by omega]
      exact h _ (by omega)

/-- `getD` after `List.set`. -/
theorem getD_set (l : List Int) (i j : Nat) (x d : Int) :
    (l.set i x).getD j d = if i = j ∧ i < l.length then x else l.getD j d := by
  simp only [List.getD_eq_getElem?_getD, List.getElem?_set]
  by_cases h1 : i = j
  · subst h1
    by_cases h2 : i < l.length
    · simp [h2]
    · simp [h2, List.getElem?_eq_none (Nat.le_of_not_lt h2)]
  · simp [h1]

/-- `getD` of `List.replicate`. -/
theorem getD_replicate (n j : Nat) (x d : Int) :
    (List.replicate n x).getD j d = if j < n then x else d := by
  simp only [List.getD_eq_getElem?_getD, List.getElem?_replicate]
  by_cases h : j < n <;> simp [h]

/-! ## `src/src/ari/log.rs` -/

/-- The 33 tabulated anchor values `SQ_T` of `squash`
(src/src/ari/log.rs). -/
def SQ_T : List Int :=
  [1,2,3,6,10,16,27,45,73,120,194,310,488,747,1101,
   1546,2047,2549,2994,3348,3607,3785,3901,3975,4022,
   4050,4068,4079,4085,4089,4092,4093,4094]

/-- `squash` from src/src/ari/log.rs.  On the two's-complement `i32`,
`d & 127` is `d % 128` (non-negative) and `d >> 7` is the flooring
division by 128; the final `>> 7` acts on a non-negative value. -/
def squash (d : Int) : Int :=
  if d > 2047 then 4095
  else if d < -2047 then 0
  else
    let i_w := d % 128
    let d2 := (d / 128 + 16).toNat
    (SQ_T.getD d2 0 * (128 - i_w) + SQ_T.getD (d2 + 1) 0 * i_w + 64) / 128

/-- Inner `while j <= i` loop of `build_stretch_table`: starting at index
`pi`, set `cnt` consecutive entries of the table to `x`. -/
def fillRange (t : List Int) (pi : Nat) (cnt : Nat) (x : Int) : List Int :=
  match cnt with
  | 0 => t
  | c + 1 => fillRange (t.set pi x) (pi + 1) c x

/-- One iteration of the outer `while x <= 2047` loop of
`build_stretch_table`; `k` counts iterations, so `x = k - 2047`, and the
loop state is `(pi, table)`. -/
def stretchStep (s : Nat × List Int) (k : Nat) : Nat × List Int :=
  let x : Int := (k : Int) - 2047
  let i := (squash x).toNat
  (i + 1, fillRange s.2 s.1 (i + 1 - s.1) x)

/-- State of `build_stretch_table`'s outer loop after `n` iterations. -/
def stretchBuild (n : Nat) : Nat × List Int :=
  (List.range n).foldl stretchStep (0, List.replicate 4096 (0 : Int))

/-- `build_stretch_table` from src/src/ari/log.rs: the outer loop runs
for `x = -2047, …, 2047` (4095 iterations), then `table[4095] = 2047`. -/
def buildStretchTable : List Int := (stretchBuild 4095).2.set 4095 2047

/-- The `STRETCH` table (src/src/ari/log.rs). -/
def STRETCH : List Int := buildStretchTable

/-- `stretch(p)` from src/src/ari/log.rs: a table lookup at `p as usize`. -/
def stretch (p : Nat) : Int := STRETCH.getD p 0

/-! ### Facts about `squash` -/

/-- Adjacent-argument check for `squash` on `[-2047, 2047]`: each step is
monotone and increases by at most 4. -/
def squashAdjOk : Bool :=
  allB (fun k =>
    decide (squash ((k : Int) - 2047) ≤ squash ((k : Int) - 2046)) &&
    decide (squash ((k : Int) - 2046) ≤ squash ((k : Int) - 2047) + 4)) 12 0 4094

theorem squashAdjOk_true : squashAdjOk = true := by decide

theorem squash_adj {d : Int} (h1 : -2047 ≤ d) (h2 : d ≤ 2046) :
    squash d ≤ squash (d + 1) ∧ squash (d + 1) ≤ squash d + 4 := by
  have hk : ((d + 2047).toNat : Int) = d + 2047 := Int.toNat_of_nonneg (by omega)
  have := (allB_spec _ 12 4094 0 (by norm_num)).mp squashAdjOk_true
    (d + 2047).toNat (by omega)
  simp only [Nat.zero_add, Bool.and_eq_true, decide_eq_true_eq] at this
  rw [hk] at this
  constructor
  · have := this.1; simpa [show d + 2047 - 2047 = d by omega,
      show d + 2047 - 2046 = d + 1 by omega] using this
  · have := this.2; simpa [show d + 2047 - 2047 = d by omega,
      show d + 2047 - 2046 = d + 1 by omega] using this

theorem squash_neg2047 : squash (-2047) = 1 := by decide

theorem squash_zero : squash 0 = 2047 := by decide

theorem squash_one : squash 1 = 2051 := by decide

theorem squash_2047 : squash 2047 = 4094 := by decide

/-- Monotonicity of `squash` inside the table range. -/
theorem squash_mono_cc {a b : Int} (ha : -2047 ≤ a) (hab : a ≤ b)
    (hb : b ≤ 2047) : squash a ≤ squash b := by
  refine Int.le_induction (P := fun b => b ≤ 2047 → squash a ≤ squash b)
    (fun _ => le_rfl)
    (fun n hn ih hb => le_trans (ih (by omega)) (squash_adj (by omega) (by omega)).1)
    b hab hb

/-- Monotonicity of `squash` on all of `ℤ`. -/
theorem squash_mono {a b : Int} (hab : a ≤ b) : squash a ≤ squash b := by
  by_cases hb1 : b > 2047
  · rw [show squash b = 4095 by rw [squash]; simp [hb1]]
    by_cases ha1 : a > 2047
    · rw [show squash a = 4095 by rw [squash]; simp [ha1]]
    by_cases ha2 : a < -2047
    · rw [show squash a = 0 by rw [squash]; simp [ha1, ha2]]; omega
    · calc squash a ≤ squash 2047 := squash_mono_cc (by omega) (by omega) le_rfl
        _ ≤ 4095 := by rw [squash_2047]; omega
  by_cases ha2 : a < -2047
  · rw [show squash a = 0 by rw [squash]; simp [show ¬ a > 2047 by omega, ha2]]
    by_cases hb2 : b < -2047
    · rw [show squash b = 0 by rw [squash]; simp [show ¬ b > 2047 by omega, hb2]]
    · calc (0 : Int) ≤ squash (-2047) := by rw [squash_neg2047]; omega
        _ ≤ squash b := squash_mono_cc le_rfl (by omega) (by omega)
  · exact squash_mono_cc (by omega) hab (by omega)

theorem squash_nonneg (d : Int) : 0 ≤ squash d := by
  by_cases h : d < -2047
  · rw [show squash d = 0 by rw [squash]; simp [show ¬ d > 2047 by omega, h]]
  · calc (0 : Int) ≤ squash (-2047) := by rw [squash_neg2047]; omega
      _ ≤ squash d := squash_mono (by omega)

theorem squash_le_4095 (d : Int) : squash d ≤ 4095 := by
  by_cases h : d > 2047
  · rw [show squash d = 4095 by rw [squash]; simp [h]]
  · calc squash d ≤ squash 2048 := squash_mono (by omega)
      _ = 4095 := by rw [squash]; norm_num

theorem squash_le_4094 {d : Int} (h : d ≤ 2047) : squash d ≤ 4094 := by
  calc squash d ≤ squash 2047 := squash_mono h
    _ = 4094 := squash_2047

/-! ### The stretch table: characterisation from the build loop -/

/-- `StretchMin j x`: `x` is the least argument in `[-2047, 2047]` whose
`squash` value reaches `j`.  This is exactly what `build_stretch_table`
stores at index `j < 4095`. -/
def StretchMin (j : Nat) (x : Int) : Prop :=
  (j : Int) ≤ squash x ∧ -2047 ≤ x ∧ x ≤ 2047 ∧
    ∀ y : Int, -2047 ≤ y → y < x → squash y < (j : Int)

theorem fillRange_length (cnt : Nat) :
    ∀ (t : List Int) (pi : Nat) (x : Int),
      (fillRange t pi cnt x).length = t.length := by
  induction cnt with
  | zero => intro t pi x; rfl
  | succ c ih =>
    intro t pi x
    rw [fillRange, ih, List.length_set]

theorem fillRange_getD (cnt : Nat) :
    ∀ (t : List Int) (pi : Nat) (x : Int) (j : Nat), pi + cnt ≤ t.length →
      (fillRange t pi cnt x).getD j 0 =
        if pi ≤ j ∧ j < pi + cnt then x else t.getD j 0 := by
  induction cnt with
  | zero =>
    intro t pi x j h
    simp only [fillRange]
    rw [if_neg (by omega)]
  | succ c ih =>
    intro t pi x j h
    rw [fillRange, ih _ _ _ _ (by rw [List.length_set]; omega), getD_set]
    by_cases hj : pi = j
    · subst hj
      simp only [List.length_set]
      have h1 : ¬ (pi + 1 ≤ pi ∧ pi < pi + 1 + c) := by omega
      have h2 : pi ≤ pi ∧ pi < pi + (c + 1) := by omega
      simp [h1, h2, show pi < t.length by omega]
    · by_cases h1 : pi + 1 ≤ j ∧ j < pi + 1 + c
      · have h2 : pi ≤ j ∧ j < pi + (c + 1) := by omega
        simp [h1, h2]
      · have h2 : ¬ (pi ≤ j ∧ j < pi + (c + 1)) := by omega
        simp [h1, h2, hj]

theorem stretchBuild_zero : stretchBuild 0 = (0, List.replicate 4096 0) := rfl

theorem stretchBuild_succ (n : Nat) :
    stretchBuild (n + 1) = stretchStep (stretchBuild n) n := by
  unfold stretchBuild
  rw [List.range_succ, List.foldl_append, List.foldl_cons, List.foldl_nil]

/-- Loop invariant of `build_stretch_table`: after `n ≤ 4095` iterations,
`pi` is one past `squash` of the last processed argument, the filled
prefix holds the minimal-preimage values, and the rest is still 0. -/
def StretchInv (n : Nat) : Prop :=
  (stretchBuild n).2.length = 4096 ∧
  (stretchBuild n).1 ≤ 4095 ∧
  (stretchBuild n).1 = (if n = 0 then 0 else (squash ((n : Int) - 2048)).toNat + 1) ∧
  (∀ j, j < (stretchBuild n).1 → StretchMin j ((stretchBuild n).2.getD j 0)) ∧
  (∀ j, (stretchBuild n).1 ≤ j → (stretchBuild n).2.getD j 0 = 0)

theorem stretchInv (n : Nat) (hn : n ≤ 4095) : StretchInv n := by
  induction n with
  | zero =>
    have h1 : stretchBuild 0 = (0, List.replicate 4096 (0 : Int)) := stretchBuild_zero
    refine ⟨?_, ?_, ?_, ?_, ?_⟩
    · rw [h1]
      show (List.replicate 4096 (0 : Int)).length = 4096
      exact List.length_replicate 4096 0
    · rw [h1]
      show (0 : Nat) ≤ 4095
      omega
    · rw [h1, if_pos rfl]
    · intro j hj
      rw [h1] at hj
      exact absurd hj (Nat.not_lt_zero j)
    · intro j hj
      rw [h1]
      show (List.replicate 4096 (0 : Int)).getD j 0 = 0
      rw [getD_replicate]
      exact ite_self 0
  | succ m ih =>
    obtain ⟨hlen, hpile, hpi, hmin, hzero⟩ := ih (by omega)
    set x : Int := (m : Int) - 2047 with hxdef
    have hx1 : -2047 ≤ x := by omega
    have hx2 : x ≤ 2047 := by
      have : (m : Int) ≤ 4094 := by exact_mod_cast Nat.le_of_lt_succ (by omega)
      omega
    have hsqx0 : 0 ≤ squash x := squash_nonneg x
    have hsqx4 : squash x ≤ 4094 := squash_le_4094 hx2
    set i : Nat := (squash x).toNat with hidef
    have hi : (i : Int) = squash x := Int.toNat_of_nonneg hsqx0
    have hi4 : i ≤ 4094 := by omega
    have hpile2 : (stretchBuild m).1 ≤ i + 1 := by
      by_cases hm : m = 0
      · rw [hpi, if_pos hm]; omega
      · rw [hpi, if_neg hm]
        have : squash ((m : Int) - 2048) ≤ squash x := squash_mono (by omega)
        have h0 : 0 ≤ squash ((m : Int) - 2048) := squash_nonneg _
        omega
    have hstep : stretchBuild (m + 1) =
        (i + 1, fillRange (stretchBuild m).2 (stretchBuild m).1
          (i + 1 - (stretchBuild m).1) x) := by
      rw [stretchBuild_succ]; rfl
    have hbound : (stretchBuild m).1 + (i + 1 - (stretchBuild m).1) ≤
        (stretchBuild m).2.length := by rw [hlen]; omega
    refine ⟨?_, ?_, ?_, ?_, ?_⟩
    · rw [hstep]
      show (fillRange (stretchBuild m).2 (stretchBuild m).1
        (i + 1 - (stretchBuild m).1) x).length = 4096
      rw [fillRange_length]
      exact hlen
    · rw [hstep]
      show i + 1 ≤ 4095
      omega
    · rw [hstep, if_neg (Nat.succ_ne_zero m)]
      show i + 1 = (squash (((m + 1 : Nat) : Int) - 2048)).toNat + 1
      have hc : ((m + 1 : Nat) : Int) - 2048 = x := by push_cast; omega
      rw [hc]
    · intro j hj
      rw [hstep] at hj ⊢
      simp only at hj ⊢
      rw [fillRange_getD _ _ _ _ _ hbound]
      by_cases hcase : (stretchBuild m).1 ≤ j ∧ j < (stretchBuild m).1 +
          (i + 1 - (stretchBuild m).1)
      · rw [if_pos hcase]
        refine ⟨?_, hx1, hx2, ?_⟩
        · have : j ≤ i := by omega
          have : (j : Int) ≤ (i : Int) := by exact_mod_cast this
          omega
        · intro y hy hyx
          have hyx' : y ≤ x - 1 := by omega
          have hsy : squash y ≤ squash (x - 1) := squash_mono hyx'
          by_cases hm : m = 0
          · exfalso
            have : x = -2047 := by rw [hxdef, hm]; simp
            omega
          · have hpieq : (stretchBuild m).1 = (squash ((m : Int) - 2048)).toNat + 1 := by
              rw [hpi, if_neg hm]
            have hxm1 : x - 1 = (m : Int) - 2048 := by omega
            have h0 : 0 ≤ squash ((m : Int) - 2048) := squash_nonneg _
            have : squash (x - 1) = squash ((m : Int) - 2048) := by rw [hxm1]
            have hjlb : (squash ((m : Int) - 2048)).toNat + 1 ≤ j := by omega
            have : ((squash ((m : Int) - 2048)).toNat : Int) = squash ((m : Int) - 2048) :=
              Int.toNat_of_nonneg h0
            have : (j : Int) ≥ squash ((m : Int) - 2048) + 1 := by
              have := hjlb
              omega
            omega
      · rw [if_neg hcase]
        exact hmin j (by omega)
    · intro j hj
      rw [hstep] at hj ⊢
      simp only at hj ⊢
      rw [fillRange_getD _ _ _ _ _ hbound]
      rw [if_neg (by omega)]
      exact hzero j (by omega)

/-- Characterisation of the stretch table: entries below 4095 are the
minimal `squash`-preimages. -/
theorem stretch_isMin (p : Nat) (hp : p < 4095) : StretchMin p (stretch p) := by
  obtain ⟨hlen, hpile, hpi, hmin, hzero⟩ := stretchInv 4095 le_rfl
  have hpi' : (stretchBuild 4095).1 = 4095 := by
    rw [hpi, if_neg (by norm_num), show ((4095 : Nat) : Int) - 2048 = 2047 by norm_num,
      squash_2047]
    decide
  have := hmin p (by omega)
  have heq : stretch p = (stretchBuild 4095).2.getD p 0 := by
    rw [stretch, STRETCH, buildStretchTable, getD_set, if_neg (by omega)]
  rwa [heq]

theorem stretch_4095 : stretch 4095 = 2047 := by
  obtain ⟨hlen, _, _, _, _⟩ := stretchInv 4095 le_rfl
  rw [stretch, STRETCH, buildStretchTable, getD_set, if_pos ⟨rfl, by omega⟩]

theorem stretch_le_2047 (p : Nat) (hp : p ≤ 4095) : stretch p ≤ 2047 := by
  rcases Nat.lt_or_ge p 4095 with h | h
  · exact (stretch_isMin p h).2.2.1
  · rw [show p = 4095 by omega, stretch_4095]

theorem stretch_ge (p : Nat) (hp : p ≤ 4095) : -2047 ≤ stretch p := by
  rcases Nat.lt_or_ge p 4095 with h | h
  · exact (stretch_isMin p h).2.1
  · rw [show p = 4095 by omega, stretch_4095]; omega

/-- Monotonicity of the stretch lookup on table indices. -/
theorem stretch_mono {a b : Nat} (hab : a ≤ b) (hb : b ≤ 4095) :
    stretch a ≤ stretch b := by
  rcases Nat.lt_or_ge b 4095 with h | h
  · rcases Nat.eq_or_lt_of_le hab with rfl | hlt
    · exact le_rfl
    obtain ⟨hja, _, _, hminb⟩ := stretch_isMin b h
    obtain ⟨hjb, ha1, ha2, hmina⟩ := stretch_isMin a (by omega)
    by_contra hcon
    push_neg at hcon
    have := hmina (stretch b) (stretch_ge b (by omega)) hcon
    have : (b : Int) ≤ squash (stretch b) := hja
    have : (a : Int) ≤ (b : Int) := by exact_mod_cast hab
    omega
  · rw [show b = 4095 by omega, stretch_4095]
    exact stretch_le_2047 a (by omega)

/-- The value `stretch 2049`, derived from the characterisation. -/
theorem stretch_2049 : stretch 2049 = 1 := by
  obtain ⟨hj, h1, h2, hmin⟩ := stretch_isMin 2049 (by norm_num)
  have hle : stretch 2049 ≤ 1 := by
    by_contra hcon
    push_neg at hcon
    have := hmin 1 (by omega) (by omega)
    rw [squash_one] at this
    norm_num at this
  have hge : 1 ≤ stretch 2049 := by
    by_contra hcon
    push_neg at hcon
    have hmono : squash (stretch 2049) ≤ squash 0 := squash_mono (by omega)
    rw [squash_zero] at hmono
    norm_num at hj
    omega
  omega

/-! ### Claim C8: squash/stretch round-trip and monotonicity -/

/-- C8, counterexample: at `p = 2049`, `squash (stretch p) = 2051`, so
`|squash (stretch p) - p| = 2 > 1`; the claimed bound 1 is false. -/
theorem c8_counterexample :
    ¬ ((squash (stretch 2049) - 2049).natAbs ≤ 1) := by
  rw [stretch_2049, squash_one]
  decide

/-- C8 (amended): for every `p ∈ [0,4095]`,
`|squash (stretch p) - p| ≤ 3` (the tight bound; 1 fails at `p = 2049`),
and `stretch (squash d)` is non-decreasing in `d`. -/
theorem c8_squash_stretch :
    (∀ p : Nat, p < 4096 → (squash (stretch p) - (p : Int)).natAbs ≤ 3) ∧
    (∀ d e : Int, d ≤ e → stretch (squash d).toNat ≤ stretch (squash e).toNat) := by
  constructor
  · intro p hp
    rcases Nat.lt_or_ge p 4095 with h | h
    · obtain ⟨hj, h1, h2, hmin⟩ := stretch_isMin p h
      rcases eq_or_lt_of_le h1 with heq | hlt
      · have hsq : squash (stretch p) = 1 := by rw [← heq, squash_neg2047]
        rw [hsq] at hj ⊢
        omega
      · have hstep : squash (stretch p) ≤ squash (stretch p - 1) + 4 := by
          have h4 := (squash_adj (d := stretch p - 1) (by omega) (by omega)).2
          rwa [show stretch p - 1 + 1 = stretch p by omega] at h4
        have hless : squash (stretch p - 1) < (p : Int) :=
          hmin (stretch p - 1) (by omega) (by omega)
        omega
    · rw [show p = 4095 by omega, stretch_4095, squash_2047]
      decide
  · intro d e hde
    have h1 : squash d ≤ squash e := squash_mono hde
    have h2 : (squash e).toNat ≤ 4095 := by
      have := squash_le_4095 e
      have := squash_nonneg e
      omega
    have h0 : 0 ≤ squash d := squash_nonneg d
    exact stretch_mono (by omega) h2

/-- C8 witness: instances of the amended theorem at concrete inputs. -/
theorem c8_witness :
    (squash (stretch 2049) - (2049 : Int)).natAbs ≤ 3 ∧
    stretch (squash 0).toNat ≤ stretch (squash 1).toNat :=
  ⟨c8_squash_stretch.1 2049 (by decide), c8_squash_stretch.2 0 1 (by decide)⟩

/-! ## The arithmetic coder shared by FPAQ and LPAQ1
(src/src/ari/fpaq.rs `Encoder`/`Decoder`; src/src/ari/lpaq1.rs
`Encoder::encode_bit`/`Decoder::decode_bit`), generic in the predictor. -/

/-- Byte-stream model of a `BufReader<File>`: the file's bytes and the
current read position. -/
structure ByteStream where
  data : List Nat
  pos : Nat

/-- `read_u8` on a stream, following `bufio.rs::read_` at `N = 1`: an
in-range read returns the byte and advances; at end of stream the inner
`read` returns 0 bytes, the refill finds nothing, and the zero-filled
buffer is returned, so the caller receives byte `0` and the position
does not move. -/
def readU8 (s : ByteStream) : Nat × ByteStream :=
  if s.pos < s.data.length then (s.data.getD s.pos 0, ⟨s.data, s.pos + 1⟩)
  else (0, s)

/-- The `mid` computation of `Encoder::encode` / `Decoder::decode`:
`low + (range >> 12) * p + ((range & 0x0FFF) * p >> 12)`.  For
`low ≤ high < 2^32` and `p < 4096` no `u32` operation here wraps, so
plain `Nat` arithmetic is exact. -/
def coderMid (low high p : Nat) : Nat :=
  low + ((high - low) >>> 12) * p + ((((high - low) &&& 0xFFF) * p) >>> 12)

/-- The renormalisation condition `((high ^ low) & 0xFF000000) == 0`. -/
def topEq (low high : Nat) : Bool := ((high ^^^ low) &&& 0xFF000000) == 0

/-- `low << 8` on `u32` (the shift discards the top byte). -/
def shl8Low (low : Nat) : Nat := low % 2 ^ 24 * 256

/-- `(high << 8) + 255` on `u32` (the shift discards the top byte; the
`+ 255` only fills the fresh low byte). -/
def shl8High (high : Nat) : Nat := high % 2 ^ 24 * 256 + 255

/-- The encoder's renormalisation `while` loop.  Each iteration writes
the agreed top byte and shifts; after 4 full iterations the state is
exactly `(0, 0xFFFFFFFF)`, on which the condition fails, so running the
body with fuel 4 is the exact semantics of the source loop. -/
def renormEnc : Nat → Nat → Nat → Nat × Nat × List Nat
  | 0, low, high => (low, high, [])
  | fuel + 1, low, high =>
    if topEq low high then
      let r := renormEnc fuel (shl8Low low) (shl8High high)
      (r.1, r.2.1, (high >>> 24) :: r.2.2)
    else (low, high, [])

/-- Interval update of one coding step: `high = mid` on bit 1,
`low = mid + 1` on bit 0. -/
def encBranch (low high m : Nat) (bit : Bool) : Nat × Nat :=
  if bit then (low, m) else (m + 1, high)

/-- Encoder state: the coder registers plus the predictor state. -/
structure EncS (σ : Type) where
  low : Nat
  high : Nat
  ps : σ

/-- Decoder state: coder registers, code register `x`, predictor state,
and the input stream. -/
structure DecS (σ : Type) where
  low : Nat
  high : Nat
  x : Nat
  ps : σ
  st : ByteStream

variable {σ : Type}

/-- The register part of one encode step: interval update followed by
the renormalisation loop.  Returns `(low', high', emitted bytes)`. -/
def codeStepLH (low high m : Nat) (bit : Bool) : Nat × Nat × List Nat :=
  renormEnc 4 (encBranch low high m bit).1 (encBranch low high m bit).2

/-- One `Encoder::encode(bit)` step, generic in the predictor:
`pf` is `Predictor::p` (composed with LPAQ1's `p < 2048` clamp where
applicable) and `uf` is `Predictor::update`.  Returns the new state and
the bytes written by the renormalisation loop. -/
def encodeBit (pf : σ → Nat) (uf : σ → Bool → σ) (e : EncS σ) (bit : Bool) :
    EncS σ × List Nat :=
  let r := codeStepLH e.low e.high (coderMid e.low e.high (pf e.ps)) bit
  (⟨r.1, r.2.1, uf e.ps bit⟩, r.2.2)

/-- Encode a list of bits, concatenating the emitted bytes. -/
def encodeBits (pf : σ → Nat) (uf : σ → Bool → σ) :
    EncS σ → List Bool → EncS σ × List Nat
  | e, [] => (e, [])
  | e, b :: bs =>
    let r := encodeBit pf uf e b
    let r2 := encodeBits pf uf r.1 bs
    (r2.1, r.2 ++ r2.2)

/-- `Encoder::flush`: drain the renormalisation loop, then write the top
byte of `high` once. -/
def flushBytes (e : EncS σ) : List Nat :=
  let r := renormEnc 4 e.low e.high
  r.2.2 ++ [r.2.1 >>> 24]

/-- The decoder's renormalisation loop; the `low`/`high` updates mirror
`renormEnc`, and each iteration shifts one input byte into `x`. -/
def renormDec : Nat → DecS σ → DecS σ
  | 0, d => d
  | fuel + 1, d =>
    if topEq d.low d.high then
      let rb := readU8 d.st
      renormDec fuel ⟨shl8Low d.low, shl8High d.high, d.x % 2 ^ 24 * 256 + rb.1, d.ps, rb.2⟩
    else d

/-- One `Decoder::decode` step: `bit = 1` iff `x ≤ mid`, then the same
interval update and renormalisation as the encoder. -/
def decodeBit (pf : σ → Nat) (uf : σ → Bool → σ) (d : DecS σ) : Bool × DecS σ :=
  let m := coderMid d.low d.high (pf d.ps)
  let bit := decide (d.x ≤ m)
  let lh := encBranch d.low d.high m bit
  (bit, renormDec 4 ⟨lh.1, lh.2, d.x, uf d.ps bit, d.st⟩)

/-- Decode `n` bits. -/
def decodeBits (pf : σ → Nat) (uf : σ → Bool → σ) :
    DecS σ → Nat → List Bool × DecS σ
  | d, 0 => ([], d)
  | d, n + 1 =>
    let r := decodeBit pf uf d
    let r2 := decodeBits pf uf r.2 n
    (r.1 :: r2.1, r2.2)

/-- One step of seeding `x`: `x = (x << 8) + read_u8()`. -/
def seedByte (p : Nat × ByteStream) : Nat × ByteStream :=
  let rb := readU8 p.2
  (p.1 % 2 ^ 24 * 256 + rb.1, rb.2)

/-- Decoder construction (`Decoder::new` in fpaq.rs, `Decoder::new` plus
`init_x` in lpaq1.rs): seed `x` with four input bytes. -/
def decInit (ps : σ) (st : ByteStream) : DecS σ :=
  let r := seedByte (seedByte (seedByte (seedByte (0, st))))
  ⟨0, 0xFFFFFFFF, r.1, ps, r.2⟩

/-! ### The coder invariant (claim C3) -/

/-- Invariant of the coder registers at the start of every coding step:
`low ≤ high` in `[0, 2^32)` and the top bytes of `low` and `high`
differ (no renormalisation pending). -/
def CoderInv (low high : Nat) : Prop :=
  low ≤ high ∧ high < 2 ^ 32 ∧ low / 2 ^ 24 ≠ high / 2 ^ 24

theorem testBit_top_mask (i : Nat) :
    Nat.testBit 0xFF000000 i = decide (24 ≤ i ∧ i < 32) := by
  rcases Nat.lt_or_ge i 32 with h | h
  · interval_cases i <;> decide
  · rw [Nat.testBit_lt_two_pow (lt_of_lt_of_le (by norm_num)
      (Nat.pow_le_pow_right (by norm_num) h))]
    simp
    omega

/-- Bridge between the renormalisation condition and the top bytes. -/
theorem topEq_iff {l h : Nat} (hl : l < 2 ^ 32) (hh : h < 2 ^ 32) :
    topEq l h = true ↔ l / 2 ^ 24 = h / 2 ^ 24 := by
  rw [topEq, beq_iff_eq, ← Nat.shiftRight_eq_div_pow, ← Nat.shiftRight_eq_div_pow]
  constructor
  · intro hz
    apply Nat.eq_of_testBit_eq
    intro j
    rw [Nat.testBit_shiftRight, Nat.testBit_shiftRight]
    rcases Nat.lt_or_ge j 8 with hj | hj
    · have hb := congrArg (fun x => Nat.testBit x (24 + j)) hz
      simp only [Nat.testBit_and, Nat.testBit_xor, Nat.zero_testBit,
        testBit_top_mask] at hb
      rw [decide_eq_true (show 24 ≤ 24 + j ∧ 24 + j < 32 by omega)] at hb
      simp only [Bool.and_true] at hb
      cases hxl : Nat.testBit l (24 + j) <;> cases hxh : Nat.testBit h (24 + j) <;>
        simp [hxl, hxh] at hb ⊢
    · rw [Nat.testBit_lt_two_pow (lt_of_lt_of_le hl
          (Nat.pow_le_pow_right (by norm_num) (by omega))),
        Nat.testBit_lt_two_pow (lt_of_lt_of_le hh
          (Nat.pow_le_pow_right (by norm_num) (by omega)))]
  · intro hd
    apply Nat.eq_of_testBit_eq
    intro i
    simp only [Nat.testBit_and, Nat.testBit_xor, Nat.zero_testBit, testBit_top_mask]
    rcases Nat.lt_or_ge i 24 with hi | hi
    · rw [decide_eq_false (by omega)]
      simp
    · rcases Nat.lt_or_ge i 32 with hi2 | hi2
      · have hbit := congrArg (fun x => Nat.testBit x (i - 24)) hd
        simp only [Nat.testBit_shiftRight] at hbit
        rw [show 24 + (i - 24) = i by omega] at hbit
        rw [hbit]
        simp
      · rw [decide_eq_false (by omega)]
        simp

theorem and_fff (r : Nat) : r &&& 0xFFF = r % 2 ^ 12 := by
  have h := Nat.and_pow_two_sub_one_eq_mod r 12
  norm_num at h
  norm_num [h]

theorem coderMid_ge_low (low high p : Nat) : low ≤ coderMid low high p := by
  rw [coderMid]
  exact le_trans (Nat.le_add_right _ _) (Nat.le_add_right _ _)

theorem coderMid_lt_high {low high p : Nat} (h1 : low ≤ high) (hp : p < 4096)
    (hne : low / 2 ^ 24 ≠ high / 2 ^ 24) : coderMid low high p < high := by
  have hlt : low < high := by
    rcases Nat.eq_or_lt_of_le h1 with rfl | hl
    · exact absurd rfl hne
    · exact hl
  set r := high - low with hrdef
  have hr1 : 1 ≤ r := by omega
  have hoff : (r >>> 12) * p + (((r &&& 0xFFF) * p) >>> 12) = r * p / 2 ^ 12 := by
    rw [Nat.shiftRight_eq_div_pow, Nat.shiftRight_eq_div_pow, and_fff]
    have hsplit : r * p = r % 2 ^ 12 * p + 2 ^ 12 * (r / 2 ^ 12 * p) := by
      conv_lhs => rw [← Nat.mod_add_div r (2 ^ 12)]
      ring
    rw [hsplit, Nat.add_mul_div_left _ _ (by norm_num : 0 < 2 ^ 12)]
    exact Nat.add_comm _ _
  have hmul : r * p + r ≤ r * 2 ^ 12 := by
    have h4 := Nat.mul_le_mul_left r (show p + 1 ≤ 2 ^ 12 by omega)
    rw [Nat.mul_add, Nat.mul_one] at h4
    exact h4
  have hb : r * p / 2 ^ 12 < r :=
    Nat.div_lt_of_lt_mul (show r * p < 2 ^ 12 * r by omega)
  have hkey : coderMid low high p =
      low + ((r >>> 12) * p + (((r &&& 0xFFF) * p) >>> 12)) := by
    rw [coderMid, ← hrdef, Nat.add_assoc]
  rw [hkey, hoff]
  omega

theorem renormEnc_pos {f l h : Nat} (hc : topEq l h = true) :
    renormEnc (f + 1) l h = ((renormEnc f (shl8Low l) (shl8High h)).1,
      (renormEnc f (shl8Low l) (shl8High h)).2.1,
      (h >>> 24) :: (renormEnc f (shl8Low l) (shl8High h)).2.2) := by
  rw [renormEnc, if_pos hc]

theorem renormEnc_neg {f l h : Nat} (hc : topEq l h = false) :
    renormEnc (f + 1) l h = (l, h, []) := by
  rw [renormEnc, if_neg (by simp [hc])]

theorem shl8_le {l h : Nat} (h1 : l ≤ h) (heq : l / 2 ^ 24 = h / 2 ^ 24) :
    shl8Low l ≤ shl8High h := by
  unfold shl8Low shl8High
  omega

theorem shl8High_lt (h : Nat) : shl8High h < 2 ^ 32 := by
  unfold shl8High
  omega

theorem renormEnc_wf : ∀ f l h, l ≤ h → h < 2 ^ 32 →
    (renormEnc f l h).1 ≤ (renormEnc f l h).2.1 ∧ (renormEnc f l h).2.1 < 2 ^ 32 ∧
    ∀ b ∈ (renormEnc f l h).2.2, b < 256 := by
  intro f
  induction f with
  | zero =>
    intro l h h1 h2
    exact ⟨h1, h2, by simp [renormEnc]⟩
  | succ n ih =>
    intro l h h1 h2
    cases hc : topEq l h with
    | false =>
      rw [renormEnc_neg hc]
      exact ⟨h1, h2, by simp⟩
    | true =>
      rw [renormEnc_pos hc]
      have heq := (topEq_iff (by omega) h2).mp hc
      obtain ⟨i1, i2, i3⟩ := ih (shl8Low l) (shl8High h) (shl8_le h1 heq) (shl8High_lt h)
      refine ⟨i1, i2, ?_⟩
      intro b hbmem
      simp only [List.mem_cons] at hbmem
      rcases hbmem with rfl | hbmem
      · rw [Nat.shiftRight_eq_div_pow]
        omega
      · exact i3 b hbmem

/-- Iterated `low` shift. -/
def shlN : Nat → Nat → Nat
  | 0, l => l
  | f + 1, l => shlN f (shl8Low l)

/-- Iterated `high` shift. -/
def shhN : Nat → Nat → Nat
  | 0, h => h
  | f + 1, h => shhN f (shl8High h)

theorem renormEnc_exit : ∀ f l h,
    topEq (renormEnc f l h).1 (renormEnc f l h).2.1 = false ∨
    ((renormEnc f l h).1 = shlN f l ∧ (renormEnc f l h).2.1 = shhN f h) := by
  intro f
  induction f with
  | zero =>
    intro l h
    right
    exact ⟨rfl, rfl⟩
  | succ n ih =>
    intro l h
    cases hc : topEq l h with
    | false =>
      left
      rw [renormEnc_neg hc]
      exact hc
    | true =>
      rw [renormEnc_pos hc]
      simp only
      rcases ih (shl8Low l) (shl8High h) with hl | ⟨ha, hb⟩
      · left; exact hl
      · right
        exact ⟨by rw [ha]; rfl, by rw [hb]; rfl⟩

theorem shlN4 (l : Nat) : shlN 4 l = 0 := by
  show shl8Low (shl8Low (shl8Low (shl8Low l))) = 0
  unfold shl8Low
  omega

theorem shhN4 (h : Nat) : shhN 4 h = 0xFFFFFFFF := by
  show shl8High (shl8High (shl8High (shl8High h))) = 0xFFFFFFFF
  unfold shl8High
  omega

theorem renormEnc4_post (l h : Nat) (h1 : l ≤ h) (h2 : h < 2 ^ 32) :
    (renormEnc 4 l h).1 / 2 ^ 24 ≠ (renormEnc 4 l h).2.1 / 2 ^ 24 := by
  obtain ⟨w1, w2, _⟩ := renormEnc_wf 4 l h h1 h2
  intro hcon
  have htrue := (topEq_iff (by omega) w2).mpr hcon
  rcases renormEnc_exit 4 l h with he | ⟨ha, hb⟩
  · rw [he] at htrue
    simp at htrue
  · rw [ha, hb, shlN4, shhN4] at hcon
    norm_num at hcon

/-- General stop lemma: if the condition fails, the loop does nothing. -/
theorem renormEnc_stop : ∀ {f l h : Nat}, topEq l h = false →
    renormEnc f l h = (l, h, []) := by
  intro f
  cases f with
  | zero => intro l h _; rfl
  | succ n => intro l h hc; exact renormEnc_neg hc

/-- The 32-bit big-endian window of a byte stream at offset `w` (reads
past the end give 0, exactly as `read_u8` does). -/
def window (S : List Nat) (w : Nat) : Nat :=
  S.getD w 0 * 2 ^ 24 + S.getD (w + 1) 0 * 2 ^ 16 +
    S.getD (w + 2) 0 * 2 ^ 8 + S.getD (w + 3) 0

/-- Every byte of the stream (and the out-of-range default) is < 256. -/
def ByteOk (S : List Nat) : Prop := ∀ i, S.getD i 0 < 256

theorem getD_append (l1 l2 : List Nat) (i : Nat) :
    (l1 ++ l2).getD i 0 =
      if i < l1.length then l1.getD i 0 else l2.getD (i - l1.length) 0 := by
  induction l1 generalizing i with
  | nil => simp
  | cons a l ih =>
    cases i with
    | zero => simp
    | succ n =>
      rw [List.cons_append, List.getD_cons_succ, List.getD_cons_succ, ih]
      simp only [List.length_cons]
      by_cases hn : n < l.length
      · rw [if_pos hn, if_pos (by omega)]
      · rw [if_neg hn, if_neg (by omega)]
        congr 1
        omega

theorem byteOk_append {l1 l2 : List Nat} (h1 : ∀ b ∈ l1, b < 256)
    (h2 : ByteOk l2) : ByteOk (l1 ++ l2) := by
  intro i
  rw [getD_append]
  by_cases hi : i < l1.length
  · rw [if_pos hi]
    rw [List.getD_eq_getElem?_getD, List.getElem?_eq_getElem hi]
    exact h1 _ (List.getElem_mem hi)
  · rw [if_neg hi]
    exact h2 _

theorem getD_drop (S : List Nat) : ∀ w i, (S.drop w).getD i 0 = S.getD (w + i) 0 := by
  induction S with
  | nil => intro w i; simp
  | cons a l ih =>
    intro w i
    cases w with
    | zero => simp
    | succ n =>
      rw [List.drop_succ_cons, ih, show n + 1 + i = (n + i) + 1 by omega,
        List.getD_cons_succ]

theorem window_drop (S : List Nat) (w : Nat) : window (S.drop w) 0 = window S w := by
  unfold window
  rw [getD_drop, getD_drop, getD_drop, getD_drop]
  norm_num

theorem byteOk_drop {S : List Nat} (h : ByteOk S) (w : Nat) : ByteOk (S.drop w) := by
  intro i
  rw [getD_drop]
  exact h _

theorem window_cons (b : Nat) (S : List Nat) (hb : ByteOk S) :
    window (b :: S) 0 = b * 2 ^ 24 + window S 0 / 2 ^ 8 := by
  have h0 := hb 0
  have h1 := hb 1
  have h2 := hb 2
  have h3 := hb 3
  simp only [window, Nat.zero_add, List.getD_cons_zero, List.getD_cons_succ]
  omega

/-- `flush` with no renormalisation pending emits exactly the top byte
of `high`. -/
theorem flushBytes_eq {σ : Type} {e : EncS σ} (hinv : CoderInv e.low e.high) :
    flushBytes e = [e.high >>> 24] := by
  obtain ⟨h1, h2, hne⟩ := hinv
  have hc : topEq e.low e.high = false := by
    cases hcc : topEq e.low e.high
    · rfl
    · exact absurd ((topEq_iff (by omega) h2).mp hcc) hne
  rw [flushBytes, renormEnc_stop hc]
  rfl

theorem flush_window {σ : Type} {e : EncS σ} (hinv : CoderInv e.low e.high) :
    e.low ≤ window (flushBytes e) 0 ∧ window (flushBytes e) 0 ≤ e.high := by
  obtain ⟨h1, h2, hne⟩ := hinv
  rw [flushBytes_eq ⟨h1, h2, hne⟩]
  simp only [window, Nat.zero_add, List.getD_cons_zero, List.getD_cons_succ,
    List.getD_nil]
  rw [Nat.shiftRight_eq_div_pow]
  omega

theorem renormEnc_window : ∀ f l h (S : List Nat), l ≤ h → h < 2 ^ 32 → ByteOk S →
    (renormEnc f l h).1 ≤ window S 0 → window S 0 ≤ (renormEnc f l h).2.1 →
    l ≤ window ((renormEnc f l h).2.2 ++ S) 0 ∧
      window ((renormEnc f l h).2.2 ++ S) 0 ≤ h := by
  intro f
  induction f with
  | zero =>
    intro l h S h1 h2 hB hlo hhi
    simpa [renormEnc] using ⟨hlo, hhi⟩
  | succ n ih =>
    intro l h S h1 h2 hB hlo hhi
    cases hc : topEq l h with
    | false =>
      rw [renormEnc_neg hc] at hlo hhi ⊢
      simpa using ⟨hlo, hhi⟩
    | true =>
      rw [renormEnc_pos hc] at hlo hhi ⊢
      simp only at hlo hhi ⊢
      have heq := (topEq_iff (by omega) h2).mp hc
      obtain ⟨ilo, ihi⟩ := ih (shl8Low l) (shl8High h) S (shl8_le h1 heq)
        (shl8High_lt h) hB hlo hhi
      have hBout : ByteOk ((renormEnc n (shl8Low l) (shl8High h)).2.2 ++ S) :=
        byteOk_append (renormEnc_wf n _ _ (shl8_le h1 heq) (shl8High_lt h)).2.2 hB
      rw [List.cons_append, window_cons _ _ hBout]
      rw [Nat.shiftRight_eq_div_pow]
      set W := window ((renormEnc n (shl8Low l) (shl8High h)).2.2 ++ S) 0 with hW
      have ile : l % 2 ^ 24 * 256 ≤ W := ilo
      have ihe : W ≤ h % 2 ^ 24 * 256 + 255 := ihi
      omega

theorem encodeBit_low {σ : Type} (pf : σ → Nat) (uf : σ → Bool → σ) (e : EncS σ)
    (b : Bool) : (encodeBit pf uf e b).1.low =
      (codeStepLH e.low e.high (coderMid e.low e.high (pf e.ps)) b).1 := rfl

theorem encodeBit_high {σ : Type} (pf : σ → Nat) (uf : σ → Bool → σ) (e : EncS σ)
    (b : Bool) : (encodeBit pf uf e b).1.high =
      (codeStepLH e.low e.high (coderMid e.low e.high (pf e.ps)) b).2.1 := rfl

theorem encodeBit_ps {σ : Type} (pf : σ → Nat) (uf : σ → Bool → σ) (e : EncS σ)
    (b : Bool) : (encodeBit pf uf e b).1.ps = uf e.ps b := rfl

theorem encodeBit_out {σ : Type} (pf : σ → Nat) (uf : σ → Bool → σ) (e : EncS σ)
    (b : Bool) : (encodeBit pf uf e b).2 =
      (codeStepLH e.low e.high (coderMid e.low e.high (pf e.ps)) b).2.2 := rfl

theorem encBranch_le (low high m : Nat) (b : Bool) (h1 : low ≤ m) (h2 : m < high) :
    (encBranch low high m b).1 ≤ (encBranch low high m b).2 ∧
    (encBranch low high m b).2 ≤ high := by
  cases b <;> simp [encBranch] <;> omega

/-- Claim C3 core: one register step from an invariant state with a
probability below 4096 re-establishes the invariant. -/
theorem codeStepLH_inv {low high m : Nat} (b : Bool) (h1 : low ≤ m) (h2 : m < high)
    (hh : high < 2 ^ 32) :
    CoderInv (codeStepLH low high m b).1 (codeStepLH low high m b).2.1 := by
  obtain ⟨hb1, hb2⟩ := encBranch_le low high m b h1 h2
  obtain ⟨w1, w2, _⟩ := renormEnc_wf 4 _ _ hb1 (by omega)
  exact ⟨w1, w2, renormEnc4_post _ _ hb1 (by omega)⟩

theorem codeStepLH_bytes {low high m : Nat} (b : Bool) (h1 : low ≤ m)
    (h2 : m < high) (hh : high < 2 ^ 32) :
    ∀ x ∈ (codeStepLH low high m b).2.2, x < 256 := by
  obtain ⟨hb1, hb2⟩ := encBranch_le low high m b h1 h2
  exact (renormEnc_wf 4 _ _ hb1 (by omega)).2.2

theorem encodeBit_inv {σ : Type} (pf : σ → Nat) (uf : σ → Bool → σ) (e : EncS σ)
    (b : Bool) (hinv : CoderInv e.low e.high) (hp : pf e.ps < 4096) :
    CoderInv (encodeBit pf uf e b).1.low (encodeBit pf uf e b).1.high := by
  obtain ⟨h1, h2, hne⟩ := hinv
  rw [encodeBit_low, encodeBit_high]
  exact codeStepLH_inv b (coderMid_ge_low _ _ _) (coderMid_lt_high h1 hp hne) h2

theorem codeStepLH_def (low high m : Nat) (b : Bool) :
    codeStepLH low high m b =
      renormEnc 4 (encBranch low high m b).1 (encBranch low high m b).2 := rfl

theorem encBranch_ge (low high m : Nat) (b : Bool) (h1 : low ≤ m) :
    low ≤ (encBranch low high m b).1 := by
  cases b <;> simp [encBranch] <;> omega

theorem decodeBit_fst {σ : Type} (pf : σ → Nat) (uf : σ → Bool → σ) (d : DecS σ) :
    (decodeBit pf uf d).1 = decide (d.x ≤ coderMid d.low d.high (pf d.ps)) := rfl

theorem decodeBit_snd {σ : Type} (pf : σ → Nat) (uf : σ → Bool → σ) (d : DecS σ) :
    (decodeBit pf uf d).2 = renormDec 4
      ⟨(encBranch d.low d.high (coderMid d.low d.high (pf d.ps))
          (decide (d.x ≤ coderMid d.low d.high (pf d.ps)))).1,
        (encBranch d.low d.high (coderMid d.low d.high (pf d.ps))
          (decide (d.x ≤ coderMid d.low d.high (pf d.ps)))).2,
        d.x, uf d.ps (decide (d.x ≤ coderMid d.low d.high (pf d.ps))), d.st⟩ := rfl

/-- Encoded byte stream from state `e` for the remaining bits `bs`,
including the final flush. -/
def encTail {σ : Type} (pf : σ → Nat) (uf : σ → Bool → σ) (e : EncS σ)
    (bs : List Bool) : List Nat :=
  (encodeBits pf uf e bs).2 ++ flushBytes (encodeBits pf uf e bs).1

theorem encTail_nil {σ : Type} (pf : σ → Nat) (uf : σ → Bool → σ) (e : EncS σ) :
    encTail pf uf e [] = flushBytes e := by
  unfold encTail encodeBits
  simp

theorem encTail_cons {σ : Type} (pf : σ → Nat) (uf : σ → Bool → σ) (e : EncS σ)
    (b : Bool) (bs : List Bool) :
    encTail pf uf e (b :: bs) =
      (encodeBit pf uf e b).2 ++ encTail pf uf (encodeBit pf uf e b).1 bs := by
  unfold encTail
  show ((encodeBit pf uf e b).2 ++ (encodeBits pf uf (encodeBit pf uf e b).1 bs).2)
      ++ _ = _
  rw [List.append_assoc]
  rfl

theorem byteOk_single {b : Nat} (hb : b < 256) : ByteOk [b] := by
  intro i
  cases i with
  | zero => simpa using hb
  | succ n =>
    rw [List.getD_cons_succ, List.getD_nil]
    omega

section Sync

variable {σ : Type} (pf : σ → Nat) (uf : σ → Bool → σ) (I : σ → Prop)

/-- Bytes of the future encoder output are bytes. -/
theorem encTail_bytes (hpf : ∀ s, I s → pf s < 4096)
    (huf : ∀ s b, I s → I (uf s b)) : ∀ (bs : List Bool) (e : EncS σ),
    CoderInv e.low e.high → I e.ps → ByteOk (encTail pf uf e bs) := by
  intro bs
  induction bs with
  | nil =>
    intro e hinv hI
    rw [encTail_nil, flushBytes_eq hinv]
    refine byteOk_single ?_
    rw [Nat.shiftRight_eq_div_pow]
    have := hinv.2.1
    omega
  | cons b bs ih =>
    intro e hinv hI
    rw [encTail_cons]
    obtain ⟨h1, h2, hne⟩ := hinv
    have hp := hpf e.ps hI
    refine byteOk_append ?_ (ih _ (encodeBit_inv pf uf e b ⟨h1, h2, hne⟩ hp) ?_)
    · rw [encodeBit_out]
      exact codeStepLH_bytes b (coderMid_ge_low _ _ _)
        (coderMid_lt_high h1 hp hne) h2
    · rw [encodeBit_ps]
      exact huf _ _ hI

/-- The window of the future encoder output always lies inside the
current coding interval. -/
theorem encTail_window (hpf : ∀ s, I s → pf s < 4096)
    (huf : ∀ s b, I s → I (uf s b)) : ∀ (bs : List Bool) (e : EncS σ),
    CoderInv e.low e.high → I e.ps →
    e.low ≤ window (encTail pf uf e bs) 0 ∧
      window (encTail pf uf e bs) 0 ≤ e.high := by
  intro bs
  induction bs with
  | nil =>
    intro e hinv hI
    rw [encTail_nil]
    exact flush_window hinv
  | cons b bs ih =>
    intro e hinv hI
    obtain ⟨h1, h2, hne⟩ := hinv
    have hp := hpf e.ps hI
    have hm1 : e.low ≤ coderMid e.low e.high (pf e.ps) := coderMid_ge_low _ _ _
    have hm2 : coderMid e.low e.high (pf e.ps) < e.high :=
      coderMid_lt_high h1 hp hne
    obtain ⟨hb1, hb2⟩ :=
      encBranch_le e.low e.high (coderMid e.low e.high (pf e.ps)) b hm1 hm2
    have hinv' := encodeBit_inv pf uf e b ⟨h1, h2, hne⟩ hp
    have hI' : I (encodeBit pf uf e b).1.ps := by
      rw [encodeBit_ps]
      exact huf _ _ hI
    obtain ⟨wlo, whi⟩ := ih (encodeBit pf uf e b).1 hinv' hI'
    rw [encodeBit_low, codeStepLH_def] at wlo
    rw [encodeBit_high, codeStepLH_def] at whi
    have hBt := encTail_bytes pf uf I hpf huf bs (encodeBit pf uf e b).1 hinv' hI'
    obtain ⟨rlo, rhi⟩ := renormEnc_window 4 _ _
      (encTail pf uf (encodeBit pf uf e b).1 bs) hb1 (by omega) hBt wlo whi
    rw [encTail_cons, encodeBit_out, codeStepLH_def]
    have hge := encBranch_ge e.low e.high (coderMid e.low e.high (pf e.ps)) b hm1
    exact ⟨le_trans hge rlo, le_trans rhi hb2⟩

end Sync

theorem readU8_min (S : List Nat) (w : Nat) :
    readU8 ⟨S, min w S.length⟩ = (S.getD w 0, ⟨S, min (w + 1) S.length⟩) := by
  unfold readU8
  simp only
  rcases Nat.lt_or_ge w S.length with hw | hw
  · rw [min_eq_left (by omega)]
    rw [if_pos hw]
    rw [min_eq_left (by omega)]
  · rw [min_eq_right (by omega)]
    rw [if_neg (by omega)]
    rw [List.getD_eq_default _ _ hw, min_eq_right (by omega)]

theorem renormDec_pos {σ : Type} {f : Nat} {d : DecS σ} (hc : topEq d.low d.high = true) :
    renormDec f.succ d = renormDec f ⟨shl8Low d.low, shl8High d.high,
      d.x % 2 ^ 24 * 256 + (readU8 d.st).1, d.ps, (readU8 d.st).2⟩ := by
  rw [renormDec, if_pos hc]

theorem renormDec_neg {σ : Type} {f : Nat} {d : DecS σ} (hc : topEq d.low d.high = false) :
    renormDec f.succ d = d := by
  rw [renormDec, if_neg (by simp [hc])]

theorem window_shift {S : List Nat} (hB : ByteOk S) (w : Nat) :
    window S w % 2 ^ 24 * 256 + S.getD (w + 4) 0 = window S (w + 1) := by
  have h0 := hB w
  have h1 := hB (w + 1)
  have h2 := hB (w + 2)
  have h3 := hB (w + 3)
  have h4 := hB (w + 4)
  unfold window
  rw [show w + 1 + 1 = w + 2 by omega, show w + 1 + 2 = w + 3 by omega,
    show w + 1 + 3 = w + 4 by omega]
  omega

theorem renormDec_sync {σ : Type} : ∀ (f : Nat) (l h x : Nat) (ps : σ)
    (S : List Nat) (w : Nat), ByteOk S → x = window S w →
    renormDec f (⟨l, h, x, ps, ⟨S, min (w + 4) S.length⟩⟩ : DecS σ) =
      ⟨(renormEnc f l h).1, (renormEnc f l h).2.1,
        window S (w + (renormEnc f l h).2.2.length), ps,
        ⟨S, min (w + (renormEnc f l h).2.2.length + 4) S.length⟩⟩ := by
  intro f
  induction f with
  | zero =>
    intro l h x ps S w hB hx
    simp only [renormDec, renormEnc, List.length_nil, Nat.add_zero]
    rw [hx]
  | succ n ih =>
    intro l h x ps S w hB hx
    cases hc : topEq l h with
    | false =>
      rw [renormDec_neg hc, renormEnc_neg hc]
      simp only [List.length_nil, Nat.add_zero]
      rw [hx]
    | true =>
      rw [renormDec_pos hc]
      simp only
      rw [readU8_min]
      simp only
      rw [hx, window_shift hB w, show w + 4 + 1 = w + 1 + 4 from by omega]
      rw [ih (shl8Low l) (shl8High h) (window S (w + 1)) ps S (w + 1) hB rfl]
      rw [renormEnc_pos hc]
      simp only [List.length_cons]
      rw [show w + ((renormEnc n (shl8Low l) (shl8High h)).2.2.length + 1)
          = w + 1 + (renormEnc n (shl8Low l) (shl8High h)).2.2.length from by omega]

theorem encBranch_true (low high m : Nat) : encBranch low high m true = (low, m) := rfl

theorem encBranch_false (low high m : Nat) :
    encBranch low high m false = (m + 1, high) := rfl

theorem decInit_at {σ : Type} (ps : σ) (S : List Nat) (w : Nat) (hw : w ≤ S.length)
    (hB : ByteOk S) :
    decInit ps (⟨S, w⟩ : ByteStream) =
      ⟨0, 0xFFFFFFFF, window S w, ps, ⟨S, min (w + 4) S.length⟩⟩ := by
  have h0 : (⟨S, w⟩ : ByteStream) = ⟨S, min w S.length⟩ := by rw [min_eq_left hw]
  unfold decInit seedByte
  rw [h0, readU8_min]
  simp only
  rw [readU8_min]
  simp only
  rw [readU8_min]
  simp only
  rw [readU8_min]
  simp only
  have hb0 := hB w
  have hb1 := hB (w + 1)
  have hb2 := hB (w + 2)
  have hb3 := hB (w + 3)
  rw [show w + 1 + 1 + 1 + 1 = w + 4 from by omega]
  rw [show w + 1 + 1 = w + 2 from by omega, show w + 1 + 2 = w + 3 from by omega]
  have hxv : 0 % 2 ^ 24 * 256 + S.getD w 0 < 2 ^ 24 := by omega
  congr 1
  unfold window
  omega

theorem decodeBits_sync {σ : Type} (pf : σ → Nat) (uf : σ → Bool → σ) (I : σ → Prop)
    (hpf : ∀ s, I s → pf s < 4096) (huf : ∀ s b, I s → I (uf s b)) :
    ∀ (bs : List Bool) (e : EncS σ) (d : DecS σ) (S : List Nat) (w : Nat),
    CoderInv e.low e.high → I e.ps →
    d.low = e.low → d.high = e.high → d.ps = e.ps →
    d.st = ⟨S, min (w + 4) S.length⟩ → ByteOk S →
    d.x = window S w → S.drop w = encTail pf uf e bs →
    (decodeBits pf uf d bs.length).1 = bs := by
  intro bs
  induction bs with
  | nil =>
    intro e d S w _ _ _ _ _ _ _ _ _
    rfl
  | cons b bs ih =>
    intro e d S w hinv hI hl hh hps hst hB hx hdrop
    obtain ⟨h1, h2, hne⟩ := hinv
    have hp := hpf e.ps hI
    have hm1 : e.low ≤ coderMid e.low e.high (pf e.ps) := coderMid_ge_low _ _ _
    have hm2 : coderMid e.low e.high (pf e.ps) < e.high :=
      coderMid_lt_high h1 hp hne
    obtain ⟨hb1, hb2⟩ :=
      encBranch_le e.low e.high (coderMid e.low e.high (pf e.ps)) b hm1 hm2
    have hinv' := encodeBit_inv pf uf e b ⟨h1, h2, hne⟩ hp
    have hI' : I (encodeBit pf uf e b).1.ps := by
      rw [encodeBit_ps]
      exact huf _ _ hI
    have hBt := encTail_bytes pf uf I hpf huf bs (encodeBit pf uf e b).1 hinv' hI'
    obtain ⟨wlo, whi⟩ :=
      encTail_window pf uf I hpf huf bs (encodeBit pf uf e b).1 hinv' hI'
    rw [encodeBit_low, codeStepLH_def] at wlo
    rw [encodeBit_high, codeStepLH_def] at whi
    obtain ⟨rlo, rhi⟩ := renormEnc_window 4 _ _ _ hb1 (by omega) hBt wlo whi
    have hwin : d.x = window ((encodeBit pf uf e b).2 ++
        encTail pf uf (encodeBit pf uf e b).1 bs) 0 := by
      rw [hx, ← window_drop S w, hdrop, encTail_cons]
    rw [encodeBit_out, codeStepLH_def] at hwin
    have hxlo : (encBranch e.low e.high (coderMid e.low e.high (pf e.ps)) b).1
        ≤ d.x := by
      rw [hwin]
      exact rlo
    have hxhi : d.x ≤
        (encBranch e.low e.high (coderMid e.low e.high (pf e.ps)) b).2 := by
      rw [hwin]
      exact rhi
    have hdm : coderMid d.low d.high (pf d.ps) =
        coderMid e.low e.high (pf e.ps) := by
      rw [hl, hh, hps]
    have hbit : (decodeBit pf uf d).1 = b := by
      rw [decodeBit_fst, hdm]
      cases b
      · rw [encBranch_false] at hxlo
        exact decide_eq_false (by omega)
      · rw [encBranch_true] at hxhi
        exact decide_eq_true (by omega)
    have hbitd : decide (d.x ≤ coderMid d.low d.high (pf d.ps)) = b := hbit
    have hnext : (decodeBit pf uf d).2 =
        ⟨(encodeBit pf uf e b).1.low, (encodeBit pf uf e b).1.high,
          window S (w + (encodeBit pf uf e b).2.length), uf e.ps b,
          ⟨S, min (w + (encodeBit pf uf e b).2.length + 4) S.length⟩⟩ := by
      rw [decodeBit_snd, hbitd, hdm, hl, hh, hps, hst]
      rw [renormDec_sync 4 _ _ _ _ S w hB hx]
      rw [encodeBit_low, encodeBit_high, encodeBit_out, codeStepLH_def]
    have hdrop2 : S.drop w = (encodeBit pf uf e b).2 ++
        encTail pf uf (encodeBit pf uf e b).1 bs := by
      rw [hdrop, encTail_cons]
    have hdrop' : S.drop (w + (encodeBit pf uf e b).2.length) =
        encTail pf uf (encodeBit pf uf e b).1 bs := by
      have hcongr := congrArg (List.drop (encodeBit pf uf e b).2.length) hdrop2
      rw [List.drop_drop, List.drop_left] at hcongr
      exact hcongr
    show ((decodeBit pf uf d).1 ::
      (decodeBits pf uf (decodeBit pf uf d).2 bs.length).1) = b :: bs
    rw [hbit]
    congr 1
    refine ih (encodeBit pf uf e b).1 (decodeBit pf uf d).2 S
      (w + (encodeBit pf uf e b).2.length) hinv' hI' ?_ ?_ ?_ ?_ hB ?_ hdrop'
    · rw [hnext]
    · rw [hnext]
    · rw [hnext, encodeBit_ps]
    · rw [hnext]
    · rw [hnext]

/-- Master round-trip at the bit level: decoding from a stream that
consists of `pre` (already-consumed header bytes) followed by the
encoder's output for `bs` reproduces exactly `bs`. -/
theorem decode_encoded_at {σ : Type} (pf : σ → Nat) (uf : σ → Bool → σ)
    (I : σ → Prop) (hpf : ∀ s, I s → pf s < 4096)
    (huf : ∀ s b, I s → I (uf s b)) (pre : List Nat)
    (hpre : ∀ b ∈ pre, b < 256) (bs : List Bool) (s0 : σ) (hI : I s0) :
    (decodeBits pf uf
      (decInit s0 ⟨pre ++ encTail pf uf ⟨0, 0xFFFFFFFF, s0⟩ bs, pre.length⟩)
      bs.length).1 = bs := by
  have hinv0 : CoderInv (EncS.low (σ := σ) ⟨0, 0xFFFFFFFF, s0⟩)
      (EncS.high (σ := σ) ⟨0, 0xFFFFFFFF, s0⟩) := by
    refine ⟨?_, ?_, ?_⟩ <;> norm_num
  have hBt : ByteOk (encTail pf uf ⟨0, 0xFFFFFFFF, s0⟩ bs) :=
    encTail_bytes pf uf I hpf huf bs ⟨0, 0xFFFFFFFF, s0⟩ hinv0 hI
  have hB : ByteOk (pre ++ encTail pf uf ⟨0, 0xFFFFFFFF, s0⟩ bs) :=
    byteOk_append hpre hBt
  have hw : pre.length ≤ (pre ++ encTail pf uf ⟨0, 0xFFFFFFFF, s0⟩ bs).length := by
    rw [List.length_append]
    omega
  rw [decInit_at s0 _ pre.length hw hB]
  refine decodeBits_sync pf uf I hpf huf bs ⟨0, 0xFFFFFFFF, s0⟩ _ _ pre.length
    hinv0 hI rfl rfl rfl rfl hB rfl ?_
  rw [List.drop_left]

theorem decodeBits_add {σ : Type} (pf : σ → Nat) (uf : σ → Bool → σ) :
    ∀ (a b : Nat) (d : DecS σ),
    decodeBits pf uf d (a + b) =
      ((decodeBits pf uf d a).1 ++ (decodeBits pf uf (decodeBits pf uf d a).2 b).1,
        (decodeBits pf uf (decodeBits pf uf d a).2 b).2) := by
  intro a
  induction a with
  | zero =>
    intro b d
    rw [Nat.zero_add]
    rfl
  | succ n ih =>
    intro b d
    rw [show n + 1 + b = (n + b) + 1 from by omega]
    show ((decodeBit pf uf d).1 ::
        (decodeBits pf uf (decodeBit pf uf d).2 (n + b)).1, _) = _
    rw [ih b (decodeBit pf uf d).2]
    rfl

theorem decodeBits_len {σ : Type} (pf : σ → Nat) (uf : σ → Bool → σ) :
    ∀ (n : Nat) (d : DecS σ), (decodeBits pf uf d n).1.length = n := by
  intro n
  induction n with
  | zero => intro d; rfl
  | succ m ih =>
    intro d
    show ((decodeBit pf uf d).1 ::
      (decodeBits pf uf (decodeBit pf uf d).2 m).1).length = m + 1
    rw [List.length_cons, ih]

/-! ## `src/src/ari/fpaq.rs` — the FPAQ predictor

`next_state` comes from `src/src/ari/state.rs`, which is not present in
`src/`; it is kept as an explicit parameter `ns : Nat → Bool → Nat`
throughout, so every theorem below holds for an arbitrary state table. -/

/-- Release-mode `i32` wrap: reduce an integer into `[-2^31, 2^31)`. -/
def i32wrap (x : Int) : Int := (x + 2 ^ 31) % 2 ^ 32 - 2 ^ 31

/-- `x & 0xFFFFFE00` on an `i32` in two's complement clears the low
9 bits and keeps the sign: subtract the non-negative remainder mod 512. -/
def maskPR (m : Nat) (x : Int) : Int := x - x % m

/-- FPAQ reciprocal table `rec[i] = 32768/(i+i+5)` (fpaq.rs line 27;
512 entries, `u16`). -/
def fpaqRec (i : Nat) : Nat := 32768 / (i + i + 5)

/-- FPAQ `StateMap` (fpaq.rs lines 16-20): a current context and the
context → `u32` entry map (`cxt_map`, prediction in the high 18 bits,
count in the low 9 bits). -/
structure SMapF where
  cxt : Nat
  map : Nat → Nat

/-- `StateMap::new` (fpaq.rs lines 23-29): all entries `1 << 31`. -/
def smapFInit : SMapF := ⟨0, fun _ => 2 ^ 31⟩

/-- `StateMap::update` (fpaq.rs lines 38-50): `count = entry & 511`,
`pr = entry >> 14`, increment while `count < LIMIT` (127),
`update = (((bit << 18) - pr) * rec[count] & PR_MSK) as u32` and a
wrapping add.  The `i32` product is wrapped (release semantics) and
`& PR_MSK = & 0xFFFFFE00` clears the low 9 bits. -/
def SMapF.update (s : SMapF) (bit : Bool) : SMapF :=
  let e := s.map s.cxt
  let count := e % 512
  let pr : Int := ((e >>> 14 : Nat) : Int)
  let e1 := if count < 127 then e + 1 else e
  let pr_err : Int := (if bit then (2 ^ 18 : Int) else 0) - pr
  let upd : Int := maskPR 512 (i32wrap (pr_err * (fpaqRec count : Int)))
  ⟨s.cxt, fun j => if j = s.cxt then (e1 + (upd % 2 ^ 32).toNat) % 2 ^ 32 else s.map j⟩

/-- `StateMap::p` (fpaq.rs lines 31-36): update on the previous context,
move to the new context, return its entry's high 12 bits. -/
def SMapF.p (s : SMapF) (bit : Bool) (cxt : Nat) : Nat × SMapF :=
  let s1 := s.update bit
  ((s1.map cxt) >>> 20, ⟨cxt, s1.map⟩)

/-- `Apm` (fpaq.rs lines 53-57, identical in lpaq1.rs): current bin,
context count, and the bin → `u16` entry map. -/
structure Apm where
  bin : Nat
  cxts : Nat
  bins : Nat → Nat

/-- `Apm::new(n)` (fpaq.rs lines 60-76): the 33 values
`squash((i - 16) * 128) * 16` repeated for each of the `n` contexts. -/
def apmInit (n : Nat) : Apm :=
  ⟨0, n, fun j => (squash ((((j % 33 : Nat) : Int) - 16) * 128) * 16).toNat⟩

/-- `Apm::update` (fpaq.rs lines 95-105): move the two entries of the
current bin toward `g = (bit << 16) + (bit << rate) - bit - bit` by an
arithmetic-shift step; the results are truncated `as u16`. -/
def Apm.update (a : Apm) (bit : Bool) (rate : Nat) : Apm :=
  let bv : Int := if bit then 1 else 0
  let g : Int := bv * 2 ^ 16 + bv * 2 ^ rate - bv - bv
  let av : Int := (a.bins a.bin : Int)
  let bv2 : Int := (a.bins (a.bin + 1) : Int)
  let n1 : Nat := ((av + (g - av) / 2 ^ rate) % 2 ^ 16).toNat
  let n2 : Nat := ((bv2 + (g - bv2) / 2 ^ rate) % 2 ^ 16).toNat
  ⟨a.bin, a.cxts,
    fun j => if j = a.bin then n1 else if j = a.bin + 1 then n2 else a.bins j⟩

/-- `Apm::p` (fpaq.rs lines 78-93): update the previous bin, then
interpolate between the two entries around `stretch pr` in the row of
`cxt` (`i_w = pr & 127` is the non-negative low-7-bit weight,
`bin = ((pr + 2048) >> 7) + cxt * 33`). -/
def Apm.p (a : Apm) (bit : Bool) (rate : Nat) (pr : Nat) (cxt : Nat) :
    Nat × Apm :=
  let a1 := a.update bit rate
  let s : Int := stretch pr
  let w : Int := s % 128
  let bin : Nat := ((s + 2048) / 128).toNat + cxt * 33
  let av : Int := (a1.bins bin : Int)
  let bv : Int := (a1.bins (bin + 1) : Int)
  (((av * (128 - w) + bv * w) / 2 ^ 11).toNat, ⟨bin, a1.cxts, a1.bins⟩)

/-- FPAQ `Predictor` (fpaq.rs lines 108-115). -/
structure PredF where
  cxt : Nat
  cxt4 : Nat
  pr : Nat
  state : Nat → Nat
  sm : SMapF
  apm0 : Apm
  apm1 : Apm
  apm2 : Apm
  apm3 : Apm
  apm4 : Apm

/-- `Predictor::new` (fpaq.rs lines 118-135). -/
def predFInit : PredF :=
  ⟨0, 0, 2048, fun _ => 0, ⟨0, fun _ => 2 ^ 31⟩, apmInit 256, apmInit 256,
    apmInit 65536, apmInit 8192, apmInit 16384⟩

/-- Stage 3 of the FPAQ SSE chain: the source text `a + b + 1 >> 1`
(fpaq.rs lines 156-157), in which Rust binds `+` tighter than `>>`,
hence `(a + b + 1) >> 1`. -/
def fpaqSse12 (a b : Nat) : Nat := (a + b + 1) >>> 1

/-- `Predictor::update` (fpaq.rs lines 142-168), with `ns` the
`next_state` table.  `cxt4` is a `usize` and wraps at `2^64`;
`(cxt4 << 8) & 0xFF00` is unaffected by that wrap since the mask only
keeps low bits.  Both `apm[0]` and `apm[1]` receive the StateMap
output `pr0` (both argument lists are evaluated before `self.pr` is
reassigned). -/
def PredF.update (ns : Nat → Bool → Nat) (s : PredF) (bit : Bool) : PredF :=
  let st1 := fun j => if j = s.cxt then ns (s.state s.cxt) bit else s.state j
  let c1 := s.cxt + s.cxt + (if bit then 1 else 0)
  let cxt4 := if 256 ≤ c1 then ((s.cxt4 <<< 8) ||| (c1 - 256)) % 2 ^ 64 else s.cxt4
  let cxt := if 256 ≤ c1 then 0 else c1
  let r0 := s.sm.p bit (st1 cxt)
  let ra := s.apm0.p bit 5 r0.1 cxt
  let rb := s.apm1.p bit 9 r0.1 cxt
  let pr1 := fpaqSse12 ra.1 rb.1
  let rc := s.apm2.p bit 7 pr1 (cxt ||| ((cxt4 <<< 8) &&& 0xFF00))
  let rd := s.apm3.p bit 7 rc.1 (cxt ||| (cxt4 &&& 0x1F00))
  let pr3 := (rd.1 * 3 + rc.1 + 2) >>> 2
  let hsh := (((cxt4 &&& 0xFFFFFF) * 123456791) % 2 ^ 32) >>> 18
  let re := s.apm4.p bit 7 pr3 (cxt ^^^ hsh)
  ⟨cxt, cxt4, (re.1 + pr3 + 1) >>> 1, st1, r0.2, ra.2, rb.2, rc.2, rd.2, re.2⟩

/-- The FPAQ bit frame of one byte: its 8 bits MSB first
(`for i in (0..8).rev() { encode((byte >> i) & 1) }`, fpaq.rs 271-273). -/
def msbBits (c : Nat) : List Bool :=
  (List.range 8).reverse.map (fun i => ((c >>> i) &&& 1) == 1)

/-- The FPAQ bit stream for a file: each byte framed by a leading `1`
bit, then a terminating `0` bit (fpaq.rs lines 269-275). -/
def fpaqFrame (F : List Nat) : List Bool :=
  F.flatMap (fun c => true :: msbBits c) ++ [false]

/-- `Predictor::p` (fpaq.rs lines 137-140): the stored prediction. -/
def fpaqPf : PredF → Nat := PredF.pr

/-- `fpaq_compress` (fpaq.rs lines 266-277) as a byte-list function:
encode the framed bit stream from the initial coder state and flush. -/
def fpaqCompress (ns : Nat → Bool → Nat) (F : List Nat) : List Nat :=
  encTail fpaqPf (PredF.update ns) ⟨0, 0xFFFFFFFF, predFInit⟩ (fpaqFrame F)

/-- The byte-reassembly fold of `fpaq_decompress` (fpaq.rs line 283):
`(0..8).fold(1, |acc, _| (acc << 1) + dec.decode())` over `u8`. -/
def fpaqByteFold (bs : List Bool) : Nat :=
  bs.foldl (fun acc b => acc * 2 % 256 + (if b then 1 else 0)) 1

/-- The `while dec.decode() != 0` loop of `fpaq_decompress` (fpaq.rs
lines 282-285), with explicit fuel (the Rust loop is unbounded). -/
def fpaqDecLoop (ns : Nat → Bool → Nat) : DecS PredF → Nat → Option (List Nat)
  | _, 0 => none
  | d, fuel + 1 =>
    let r := decodeBit fpaqPf (PredF.update ns) d
    if r.1 then
      let r8 := decodeBits fpaqPf (PredF.update ns) r.2 8
      (fpaqDecLoop ns r8.2 fuel).map (fun rest => fpaqByteFold r8.1 :: rest)
    else some []

/-- `fpaq_decompress` (fpaq.rs lines 279-287): seed the decoder with
4 bytes, then run the byte loop. -/
def fpaqDecompress (ns : Nat → Bool → Nat) (S : List Nat) (fuel : Nat) :
    Option (List Nat) :=
  fpaqDecLoop ns (decInit predFInit ⟨S, 0⟩) fuel

/-! ### Bounds invariant of the FPAQ predictor -/

theorem emod16_lt (x : Int) : (x % 2 ^ 16).toNat < 2 ^ 16 := by
  have h1 := Int.emod_nonneg x (show (2 : Int) ^ 16 ≠ 0 by norm_num)
  have h2 := Int.emod_lt_of_pos x (show (0 : Int) < 2 ^ 16 by norm_num)
  omega

theorem apmInit_bins (n j : Nat) : (apmInit n).bins j < 2 ^ 16 := by
  show (squash ((((j % 33 : Nat) : Int) - 16) * 128) * 16).toNat < 2 ^ 16
  have h1 := squash_nonneg ((((j % 33 : Nat) : Int) - 16) * 128)
  have h2 := squash_le_4095 ((((j % 33 : Nat) : Int) - 16) * 128)
  omega

theorem Apm.update_bins {a : Apm} (h : ∀ j, a.bins j < 2 ^ 16) (bit : Bool)
    (rate : Nat) : ∀ j, (a.update bit rate).bins j < 2 ^ 16 := by
  intro j
  unfold Apm.update
  dsimp only
  split
  · exact emod16_lt _
  · split
    · exact emod16_lt _
    · exact h j

theorem Apm.p_bins {a : Apm} (h : ∀ j, a.bins j < 2 ^ 16) (bit : Bool)
    (rate pr cxt : Nat) : ∀ j, ((a.p bit rate pr cxt).2).bins j < 2 ^ 16 :=
  Apm.update_bins h bit rate

theorem Apm.p_cxts (a : Apm) (bit : Bool) (rate pr cxt : Nat) :
    ((a.p bit rate pr cxt).2).cxts = a.cxts := rfl

theorem interp_le (av bv w : Int) (ha0 : 0 ≤ av) (ha : av ≤ 65535)
    (hb0 : 0 ≤ bv) (hbv : bv ≤ 65535) (hw0 : 0 ≤ w) (hw : w < 128) :
    ((av * (128 - w) + bv * w) / 2 ^ 11).toNat ≤ 4095 := by
  have h1 : av * (128 - w) ≤ 65535 * (128 - w) :=
    mul_le_mul_of_nonneg_right ha (by omega)
  have h2 : bv * w ≤ 65535 * w := mul_le_mul_of_nonneg_right hbv hw0
  have h3 : av * (128 - w) + bv * w ≤ 65535 * 128 := by
    have he : 65535 * (128 - w) + 65535 * w = 65535 * 128 := by ring
    omega
  have hdiv : (av * (128 - w) + bv * w) / 2 ^ 11 ≤ (65535 * 128 : Int) / 2 ^ 11 :=
    Int.ediv_le_ediv (by norm_num) h3
  have hv : ((65535 * 128 : Int)) / 2 ^ 11 = 4095 := by decide
  omega

theorem Apm.p_fst_le {a : Apm} (h : ∀ j, a.bins j < 2 ^ 16) (bit : Bool)
    (rate pr cxt : Nat) : (a.p bit rate pr cxt).1 ≤ 4095 := by
  have hb := Apm.update_bins h bit rate
  unfold Apm.p
  dsimp only
  refine interp_le _ _ _ (Int.natCast_nonneg _) ?_ (Int.natCast_nonneg _) ?_
    (Int.emod_nonneg _ (by norm_num)) (Int.emod_lt_of_pos _ (by norm_num))
  · have := hb (((stretch pr + 2048) / 128).toNat + cxt * 33)
    omega
  · have := hb ((((stretch pr + 2048) / 128).toNat + cxt * 33) + 1)
    omega

theorem SMapF.update_map {s : SMapF} (h : ∀ j, s.map j < 2 ^ 32) (bit : Bool) :
    ∀ j, (s.update bit).map j < 2 ^ 32 := by
  intro j
  unfold SMapF.update
  dsimp only
  split
  · exact Nat.mod_lt _ (by norm_num)
  · exact h j

theorem SMapF.p_map {s : SMapF} (h : ∀ j, s.map j < 2 ^ 32) (bit : Bool)
    (cxt : Nat) : ∀ j, ((s.p bit cxt).2).map j < 2 ^ 32 :=
  SMapF.update_map h bit

theorem SMapF.p_fst_lt {s : SMapF} (h : ∀ j, s.map j < 2 ^ 32) (bit : Bool)
    (cxt : Nat) : (s.p bit cxt).1 < 4096 := by
  show ((s.update bit).map cxt) >>> 20 < 4096
  have := SMapF.update_map h bit cxt
  rw [Nat.shiftRight_eq_div_pow]
  omega

/-- Reachability invariant of the FPAQ predictor: prediction and
bit-context in range, every StateMap entry a `u32`, every APM entry a
`u16`, and the five APM table sizes as constructed. -/
def PredFInv (s : PredF) : Prop :=
  s.pr < 4096 ∧ s.cxt < 256 ∧ (∀ j, s.sm.map j < 2 ^ 32) ∧
  s.apm0.cxts = 256 ∧ s.apm1.cxts = 256 ∧ s.apm2.cxts = 65536 ∧
  s.apm3.cxts = 8192 ∧ s.apm4.cxts = 16384 ∧
  (∀ j, s.apm0.bins j < 2 ^ 16) ∧ (∀ j, s.apm1.bins j < 2 ^ 16) ∧
  (∀ j, s.apm2.bins j < 2 ^ 16) ∧ (∀ j, s.apm3.bins j < 2 ^ 16) ∧
  (∀ j, s.apm4.bins j < 2 ^ 16)

theorem predFInit_inv : PredFInv predFInit := by
  refine ⟨by decide, by decide, fun j => by norm_num [predFInit], rfl, rfl,
    rfl, rfl, rfl, apmInit_bins 256, apmInit_bins 256, apmInit_bins 65536,
    apmInit_bins 8192, apmInit_bins 16384⟩

theorem predF_update_inv (ns : Nat → Bool → Nat) {s : PredF} (bit : Bool)
    (h : PredFInv s) : PredFInv (PredF.update ns s bit) := by
  obtain ⟨-, hcxt, hsm, hc0, hc1, hc2, hc3, hc4, h0, h1, h2, h3, h4⟩ := h
  unfold PredF.update
  dsimp only
  set c1 := s.cxt + s.cxt + (if bit then 1 else 0) with hc1def
  set cxt4 := (if 256 ≤ c1 then ((s.cxt4 <<< 8) ||| (c1 - 256)) % 2 ^ 64 else s.cxt4)
    with h4def
  set cxt := (if 256 ≤ c1 then 0 else c1) with hcdef
  set sv := (if cxt = s.cxt then ns (s.state s.cxt) bit else s.state cxt) with hsvdef
  set pr0 := (s.sm.p bit sv).1 with hpr0def
  set pr1 := fpaqSse12 ((s.apm0.p bit 5 pr0 cxt).1) ((s.apm1.p bit 9 pr0 cxt).1)
    with hpr1def
  set ctx2 := cxt ||| ((cxt4 <<< 8) &&& 0xFF00) with hctx2def
  set pr2 := (s.apm2.p bit 7 pr1 ctx2).1 with hpr2def
  set ctx3 := cxt ||| (cxt4 &&& 0x1F00) with hctx3def
  set pr3 := ((s.apm3.p bit 7 pr2 ctx3).1 * 3 + pr2 + 2) >>> 2 with hpr3def
  set hsh := (((cxt4 &&& 0xFFFFFF) * 123456791) % 2 ^ 32) >>> 18 with hshdef
  set ctx4 := cxt ^^^ hsh with hctx4def
  unfold PredFInv
  dsimp only
  have hre : (s.apm4.p bit 7 pr3 ctx4).1 ≤ 4095 := Apm.p_fst_le h4 bit 7 pr3 ctx4
  have hpr3b : pr3 ≤ 4095 := by
    have hrd : (s.apm3.p bit 7 pr2 ctx3).1 ≤ 4095 := Apm.p_fst_le h3 bit 7 pr2 ctx3
    have hrc : pr2 ≤ 4095 := Apm.p_fst_le h2 bit 7 pr1 ctx2
    rw [hpr3def, Nat.shiftRight_eq_div_pow]
    omega
  refine ⟨?_, ?_, SMapF.p_map hsm bit sv,
    (Apm.p_cxts _ _ _ _ _).trans hc0, (Apm.p_cxts _ _ _ _ _).trans hc1,
    (Apm.p_cxts _ _ _ _ _).trans hc2, (Apm.p_cxts _ _ _ _ _).trans hc3,
    (Apm.p_cxts _ _ _ _ _).trans hc4,
    Apm.p_bins h0 bit 5 pr0 cxt, Apm.p_bins h1 bit 9 pr0 cxt,
    Apm.p_bins h2 bit 7 pr1 ctx2, Apm.p_bins h3 bit 7 pr2 ctx3,
    Apm.p_bins h4 bit 7 pr3 ctx4⟩
  · rw [Nat.shiftRight_eq_div_pow]
    omega
  · rw [hcdef]
    split
    · omega
    · rw [hc1def]
      omega

/-! ### The assertion-checked FPAQ pipeline (claim C10) -/

/-- `Apm::p` with its `assert!`s (and those of the inner
`Apm::update`) as explicit guards: `0 ≤ pr < 4096` (`pr` is a `Nat`
here, so only the upper bound is a condition), `cxt < cxts`,
`0 < rate < 32`. -/
def Apm.pChecked (a : Apm) (bit : Bool) (rate : Nat) (pr : Nat) (cxt : Nat) :
    Option (Nat × Apm) :=
  if pr < 4096 ∧ cxt < a.cxts ∧ 0 < rate ∧ rate < 32 then
    some (a.p bit rate pr cxt)
  else none

/-- `Predictor::update` with every APM assertion checked: the
nontrivial `assert!` conditions of `Apm::p` and `Apm::update`
(`pr < 4096` and `cxt < cxts` at each of the five calls) are evaluated
on exactly the arguments the source passes; when they all hold the
result is the unchecked update.  The remaining asserts are on literals
(`rate` is 5, 9 or 7, always in `(0, 32)`) or trivially true in the
`Bool` model of bits. -/
def PredF.updateChecked (ns : Nat → Bool → Nat) (s : PredF) (bit : Bool) :
    Option PredF :=
  let st1 := fun j => if j = s.cxt then ns (s.state s.cxt) bit else s.state j
  let c1 := s.cxt + s.cxt + (if bit then 1 else 0)
  let cxt4 := if 256 ≤ c1 then ((s.cxt4 <<< 8) ||| (c1 - 256)) % 2 ^ 64 else s.cxt4
  let cxt := if 256 ≤ c1 then 0 else c1
  let r0 := s.sm.p bit (st1 cxt)
  let ra := s.apm0.p bit 5 r0.1 cxt
  let rb := s.apm1.p bit 9 r0.1 cxt
  let pr1 := fpaqSse12 ra.1 rb.1
  let ctx2 := cxt ||| ((cxt4 <<< 8) &&& 0xFF00)
  let rc := s.apm2.p bit 7 pr1 ctx2
  let ctx3 := cxt ||| (cxt4 &&& 0x1F00)
  let rd := s.apm3.p bit 7 rc.1 ctx3
  let pr3 := (rd.1 * 3 + rc.1 + 2) >>> 2
  let ctx4 := cxt ^^^ ((((cxt4 &&& 0xFFFFFF) * 123456791) % 2 ^ 32) >>> 18)
  if r0.1 < 4096 ∧ cxt < s.apm0.cxts ∧ cxt < s.apm1.cxts ∧
      pr1 < 4096 ∧ ctx2 < s.apm2.cxts ∧ rc.1 < 4096 ∧ ctx3 < s.apm3.cxts ∧
      pr3 < 4096 ∧ ctx4 < s.apm4.cxts then
    some (PredF.update ns s bit)
  else none

theorem updateChecked_eq (ns : Nat → Bool → Nat) {s : PredF} (bit : Bool)
    (h : PredFInv s) :
    PredF.updateChecked ns s bit = some (PredF.update ns s bit) := by
  obtain ⟨-, hcxt, hsm, hc0, hc1, hc2, hc3, hc4, h0, h1, h2, h3, h4⟩ := h
  unfold PredF.updateChecked
  dsimp only
  set c1 := s.cxt + s.cxt + (if bit then 1 else 0) with hc1def
  set cxt4 := (if 256 ≤ c1 then ((s.cxt4 <<< 8) ||| (c1 - 256)) % 2 ^ 64 else s.cxt4)
    with h4def
  set cxt := (if 256 ≤ c1 then 0 else c1) with hcdef
  set sv := (if cxt = s.cxt then ns (s.state s.cxt) bit else s.state cxt) with hsvdef
  set pr0 := (s.sm.p bit sv).1 with hpr0def
  set pr1 := fpaqSse12 ((s.apm0.p bit 5 pr0 cxt).1) ((s.apm1.p bit 9 pr0 cxt).1)
    with hpr1def
  set ctx2 := cxt ||| ((cxt4 <<< 8) &&& 0xFF00) with hctx2def
  set pr2 := (s.apm2.p bit 7 pr1 ctx2).1 with hpr2def
  set ctx3 := cxt ||| (cxt4 &&& 0x1F00) with hctx3def
  set pr3v := (s.apm3.p bit 7 pr2 ctx3).1 with hpr3vdef
  set hsh := (((cxt4 &&& 0xFFFFFF) * 123456791) % 2 ^ 32) >>> 18 with hshdef
  set ctx4 := cxt ^^^ hsh with hctx4def
  have hcxtlt : cxt < 256 := by
    rw [hcdef]
    split
    · omega
    · rw [hc1def]
      omega
  have hpr0lt : pr0 < 4096 := SMapF.p_fst_lt hsm bit sv
  have hA0 : (s.apm0.p bit 5 pr0 cxt).1 ≤ 4095 := Apm.p_fst_le h0 bit 5 pr0 cxt
  have hA1 : (s.apm1.p bit 9 pr0 cxt).1 ≤ 4095 := Apm.p_fst_le h1 bit 9 pr0 cxt
  have hpr1lt : pr1 < 4096 := by
    rw [hpr1def]
    unfold fpaqSse12
    rw [Nat.shiftRight_eq_div_pow]
    omega
  have hctx2lt : ctx2 < 65536 := by
    rw [hctx2def]
    have hm : (cxt4 <<< 8) &&& 0xFF00 < 2 ^ 16 :=
      lt_of_le_of_lt Nat.and_le_right (by norm_num)
    have := Nat.or_lt_two_pow (n := 16) (show cxt < 2 ^ 16 by omega) hm
    omega
  have hA2 : pr2 ≤ 4095 := Apm.p_fst_le h2 bit 7 pr1 ctx2
  have hA3 : pr3v ≤ 4095 := Apm.p_fst_le h3 bit 7 pr2 ctx3
  have hctx3lt : ctx3 < 8192 := by
    rw [hctx3def]
    have hm : cxt4 &&& 0x1F00 < 2 ^ 13 :=
      lt_of_le_of_lt Nat.and_le_right (by norm_num)
    have := Nat.or_lt_two_pow (n := 13) (show cxt < 2 ^ 13 by omega) hm
    omega
  have hpr3lt : (pr3v * 3 + pr2 + 2) >>> 2 < 4096 := by
    rw [Nat.shiftRight_eq_div_pow]
    omega
  have hhsh : hsh < 2 ^ 14 := by
    rw [hshdef, Nat.shiftRight_eq_div_pow]
    have := Nat.mod_lt ((cxt4 &&& 0xFFFFFF) * 123456791)
      (show 0 < 2 ^ 32 by norm_num)
    omega
  have hctx4lt : ctx4 < 16384 := by
    rw [hctx4def]
    have := Nat.xor_lt_two_pow (n := 14) (show cxt < 2 ^ 14 by omega) hhsh
    omega
  rw [if_pos ⟨hpr0lt, by rw [hc0]; exact hcxtlt, by rw [hc1]; exact hcxtlt,
    hpr1lt, by rw [hc2]; exact hctx2lt, by omega, by rw [hc3]; exact hctx3lt,
    hpr3lt, by rw [hc4]; exact hctx4lt⟩]

/-- The FPAQ per-bit pipeline with all assertions, over a bit sequence. -/
def fpaqRunChecked (ns : Nat → Bool → Nat) : PredF → List Bool → Option PredF
  | s, [] => some s
  | s, b :: bs =>
    match PredF.updateChecked ns s b with
    | none => none
    | some s1 => fpaqRunChecked ns s1 bs

theorem fpaqRunChecked_inv (ns : Nat → Bool → Nat) :
    ∀ (bits : List Bool) (s : PredF), PredFInv s →
    fpaqRunChecked ns s bits = some (bits.foldl (fun t b => PredF.update ns t b) s)
      ∧ PredFInv (bits.foldl (fun t b => PredF.update ns t b) s) := by
  intro bits
  induction bits with
  | nil => exact fun s hs => ⟨rfl, hs⟩
  | cons b bs ih =>
    intro s hs
    have he := updateChecked_eq ns b hs
    obtain ⟨hrun, hinv⟩ := ih (PredF.update ns s b) (predF_update_inv ns b hs)
    rw [List.foldl_cons]
    refine ⟨?_, hinv⟩
    rw [show fpaqRunChecked ns s (b :: bs) =
      (match PredF.updateChecked ns s b with
        | none => none
        | some s1 => fpaqRunChecked ns s1 bs) from rfl, he]
    exact hrun

/-! ### The FPAQ byte frame and decode loop -/

theorem msbBits_len (c : Nat) : (msbBits c).length = 8 := by
  simp [msbBits]

theorem fpaqFrame_len (F : List Nat) : (fpaqFrame F).length = 9 * F.length + 1 := by
  induction F with
  | nil => rfl
  | cons c F ih =>
    unfold fpaqFrame at ih ⊢
    rw [List.flatMap_cons]
    simp only [List.cons_append, List.length_append, List.length_cons,
      msbBits_len] at ih ⊢
    omega

theorem fpaqFrame_cons (c : Nat) (F : List Nat) :
    fpaqFrame (c :: F) = [true] ++ (msbBits c ++ fpaqFrame F) := by
  unfold fpaqFrame
  rw [List.flatMap_cons]
  simp [List.append_assoc]

theorem fold_msb : ∀ c < 256, fpaqByteFold (msbBits c) = c := by decide

theorem fpaqDecLoop_spec (ns : Nat → Bool → Nat) :
    ∀ (F : List Nat) (fuel : Nat) (d : DecS PredF),
    (∀ b ∈ F, b < 256) → F.length < fuel →
    (decodeBits fpaqPf (PredF.update ns) d (9 * F.length + 1)).1 = fpaqFrame F →
    fpaqDecLoop ns d fuel = some F := by
  intro F
  induction F with
  | nil =>
    intro fuel d _ hfuel hdec
    obtain ⟨f, rfl⟩ : ∃ f, fuel = f + 1 := ⟨fuel - 1, by omega⟩
    have h1 : (decodeBit fpaqPf (PredF.update ns) d).1 = false := by
      have he : (decodeBits fpaqPf (PredF.update ns) d (9 * List.length ([] : List Nat) + 1)).1
          = [(decodeBit fpaqPf (PredF.update ns) d).1] := rfl
      rw [he] at hdec
      simpa [fpaqFrame] using hdec
    simp only [fpaqDecLoop, h1]
    rfl
  | cons c F ih =>
    intro fuel d hbytes hfuel hdec
    obtain ⟨f, rfl⟩ : ∃ f, fuel = f + 1 := ⟨fuel - 1, by omega⟩
    rw [show 9 * (c :: F).length + 1 = 1 + (8 + (9 * F.length + 1)) from by
      rw [List.length_cons]; ring, decodeBits_add, fpaqFrame_cons] at hdec
    obtain ⟨e1, e2⟩ := List.append_inj hdec (by rw [decodeBits_len]; rfl)
    rw [decodeBits_add] at e2
    obtain ⟨e3, e4⟩ := List.append_inj e2 (by rw [decodeBits_len, msbBits_len])
    have hbit : (decodeBit fpaqPf (PredF.update ns) d).1 = true := by
      have he : (decodeBits fpaqPf (PredF.update ns) d 1).1
          = [(decodeBit fpaqPf (PredF.update ns) d).1] := rfl
      rw [he] at e1
      simpa using e1
    simp only [fpaqDecLoop, hbit, if_true]
    have hfold : fpaqByteFold
        (decodeBits fpaqPf (PredF.update ns)
          (decodeBits fpaqPf (PredF.update ns) d 1).2 8).1 = c := by
      rw [e3]
      exact fold_msb c (hbytes c (by simp))
    rw [show (decodeBits fpaqPf (PredF.update ns)
        (decodeBit fpaqPf (PredF.update ns) d).2 8)
      = (decodeBits fpaqPf (PredF.update ns)
        (decodeBits fpaqPf (PredF.update ns) d 1).2 8) from rfl, hfold,
      ih f _ (fun b hb => hbytes b (by simp [hb])) (by simpa using hfuel) e4]
    rfl

/-- Claim C1: FPAQ round-trip.  For any `next_state` table, any file of
at most `2^20` bytes (each a byte value) and any fuel exceeding the file
length, decompressing the compressed stream returns exactly the file. -/
theorem c1_fpaq_roundtrip (ns : Nat → Bool → Nat) (F : List Nat)
    (hlen : F.length ≤ 2 ^ 20) (hbytes : ∀ b ∈ F, b < 256)
    (fuel : Nat) (hfuel : F.length < fuel) :
    fpaqDecompress ns (fpaqCompress ns F) fuel = some F := by
  have hdec := decode_encoded_at fpaqPf (PredF.update ns) PredFInv
    (fun s hs => hs.1) (fun s b hs => predF_update_inv ns b hs) []
    (fun b hb => absurd hb (List.not_mem_nil b)) (fpaqFrame F) predFInit
    predFInit_inv
  rw [List.nil_append] at hdec
  rw [fpaqFrame_len] at hdec
  exact fpaqDecLoop_spec ns F fuel _ hbytes hfuel hdec

theorem c1_fpaq_roundtrip_witness :
    fpaqDecompress (fun _ _ => 0) (fpaqCompress (fun _ _ => 0) [5]) 2 = some [5] :=
  c1_fpaq_roundtrip (fun _ _ => 0) [5] (by norm_num) (by decide) 2 (by norm_num)

/-! ### Decoder register invariant (claim C3) -/

theorem renormDec_lh {σ : Type} : ∀ (f : Nat) (d : DecS σ),
    (renormDec f d).low = (renormEnc f d.low d.high).1 ∧
    (renormDec f d).high = (renormEnc f d.low d.high).2.1 := by
  intro f
  induction f with
  | zero => exact fun d => ⟨rfl, rfl⟩
  | succ n ih =>
    intro d
    rcases hc : topEq d.low d.high with hF | hT
    · simp only [renormDec, renormEnc, hc]
      exact ⟨rfl, rfl⟩
    · simp only [renormDec, renormEnc, hc, if_true]
      exact ih ⟨shl8Low d.low, shl8High d.high, d.x % 2 ^ 24 * 256 +
        (readU8 d.st).1, d.ps, (readU8 d.st).2⟩

theorem decodeBit_inv {σ : Type} (pf : σ → Nat) (uf : σ → Bool → σ) (d : DecS σ)
    (hinv : CoderInv d.low d.high) (hp : pf d.ps < 4096) :
    CoderInv (decodeBit pf uf d).2.low (decodeBit pf uf d).2.high := by
  obtain ⟨h1, h2, hne⟩ := hinv
  have hm1 := coderMid_ge_low d.low d.high (pf d.ps)
  have hm2 := coderMid_lt_high h1 hp hne
  have hlh := renormDec_lh 4
    ⟨(encBranch d.low d.high (coderMid d.low d.high (pf d.ps))
        (decide (d.x ≤ coderMid d.low d.high (pf d.ps)))).1,
      (encBranch d.low d.high (coderMid d.low d.high (pf d.ps))
        (decide (d.x ≤ coderMid d.low d.high (pf d.ps)))).2,
      d.x, uf d.ps (decide (d.x ≤ coderMid d.low d.high (pf d.ps))), d.st⟩
  rw [decodeBit_snd, hlh.1, hlh.2]
  exact codeStepLH_inv (decide (d.x ≤ coderMid d.low d.high (pf d.ps)))
    hm1 hm2 h2

/-- Claim C3: from `low = 0`, `high = 0xFFFFFFFF` the coder invariant
(`low ≤ high` in `[0, 2^32)` with differing top bytes after
renormalisation) holds initially and is preserved by every encode step
and every decode step with a probability below 4096, in both coders
(the step functions are generic in the predictor). -/
theorem c3_coder_invariant :
    CoderInv 0 0xFFFFFFFF ∧
    (∀ (σ : Type) (pf : σ → Nat) (uf : σ → Bool → σ) (e : EncS σ) (bit : Bool),
      CoderInv e.low e.high → pf e.ps < 4096 →
      CoderInv (encodeBit pf uf e bit).1.low (encodeBit pf uf e bit).1.high) ∧
    (∀ (σ : Type) (pf : σ → Nat) (uf : σ → Bool → σ) (d : DecS σ),
      CoderInv d.low d.high → pf d.ps < 4096 →
      CoderInv (decodeBit pf uf d).2.low (decodeBit pf uf d).2.high) :=
  ⟨⟨by norm_num, by norm_num, by norm_num⟩,
    fun σ pf uf e bit hinv hp => encodeBit_inv pf uf e bit hinv hp,
    fun σ pf uf d hinv hp => decodeBit_inv pf uf d hinv hp⟩

theorem c3_witness :
    CoderInv
      (encodeBit (fun _ => 2048) (fun s _ => s) ⟨0, 0xFFFFFFFF, (0 : Nat)⟩
        true).1.low
      (encodeBit (fun _ => 2048) (fun s _ => s) ⟨0, 0xFFFFFFFF, (0 : Nat)⟩
        true).1.high ∧
    CoderInv
      (decodeBit (fun _ => 2048) (fun s _ => s)
        ⟨0, 0xFFFFFFFF, 0, (0 : Nat), ⟨[], 0⟩⟩).2.low
      (decodeBit (fun _ => 2048) (fun s _ => s)
        ⟨0, 0xFFFFFFFF, 0, (0 : Nat), ⟨[], 0⟩⟩).2.high :=
  ⟨c3_coder_invariant.2.1 Nat (fun _ => 2048) (fun s _ => s)
      ⟨0, 0xFFFFFFFF, 0⟩ true (by refine ⟨?_, ?_, ?_⟩ <;> norm_num)
      (by norm_num),
    c3_coder_invariant.2.2 Nat (fun _ => 2048) (fun s _ => s)
      ⟨0, 0xFFFFFFFF, 0, 0, ⟨[], 0⟩⟩ (by refine ⟨?_, ?_, ?_⟩ <;> norm_num)
      (by norm_num)⟩

/-! ### The SSE-stage binding (claim C4) -/

/-- Modelled from the spec (§4.8, FPAQ per-bit steps 1-6): the same
pipeline with stage 3 written with explicit parentheses,
`p = (apm[0].predict(bit,5,p,cxt) + apm[1].predict(bit,9,p,cxt) + 1) >> 1`,
both APMs receiving the StateMap output `p`. -/
def fpaqUpdateSpec (ns : Nat → Bool → Nat) (s : PredF) (bit : Bool) : PredF :=
  let st1 := fun j => if j = s.cxt then ns (s.state s.cxt) bit else s.state j
  let c1 := s.cxt + s.cxt + (if bit then 1 else 0)
  let cxt4 := if 256 ≤ c1 then ((s.cxt4 <<< 8) ||| (c1 - 256)) % 2 ^ 64 else s.cxt4
  let cxt := if 256 ≤ c1 then 0 else c1
  let r0 := s.sm.p bit (st1 cxt)
  let ra := s.apm0.p bit 5 r0.1 cxt
  let rb := s.apm1.p bit 9 r0.1 cxt
  let pr1 := (ra.1 + rb.1 + 1) >>> 1
  let rc := s.apm2.p bit 7 pr1 (cxt ||| ((cxt4 <<< 8) &&& 0xFF00))
  let rd := s.apm3.p bit 7 rc.1 (cxt ||| (cxt4 &&& 0x1F00))
  let pr3 := (rd.1 * 3 + rc.1 + 2) >>> 2
  let hsh := (((cxt4 &&& 0xFFFFFF) * 123456791) % 2 ^ 32) >>> 18
  let re := s.apm4.p bit 7 pr3 (cxt ^^^ hsh)
  ⟨cxt, cxt4, (re.1 + pr3 + 1) >>> 1, st1, r0.2, ra.2, rb.2, rc.2, rd.2, re.2⟩

/-- Claim C4: the FPAQ SSE stage 3 computes `(a + b + 1) >> 1` with
both APMs fed the StateMap prediction: the source update agrees with
the spec's parenthesised pipeline, the stage equals `(a + b + 1) / 2`,
and it differs from the misreading `a + b + (1 >> 1)`. -/
theorem c4_sse_binding (ns : Nat → Bool → Nat) :
    (∀ (s : PredF) (bit : Bool), PredF.update ns s bit = fpaqUpdateSpec ns s bit) ∧
    (∀ a b : Nat, fpaqSse12 a b = (a + b + 1) / 2) ∧
    fpaqSse12 1 1 ≠ 1 + 1 + (1 >>> 1) :=
  ⟨fun s bit => rfl,
    fun a b => Nat.shiftRight_eq_div_pow (a + b + 1) 1 ▸ rfl,
    by decide⟩

/-! ### End-of-stream reads (claim C5) -/

/-- Claim C5 (corrected): a one-byte read at end of stream does not
abort: `read_::<1>` silently returns the zero-filled buffer and the
position does not advance. -/
theorem c5_eof_silent (s : ByteStream) (h : s.data.length ≤ s.pos) :
    readU8 s = (0, s) := by
  unfold readU8
  rw [if_neg (by omega)]

theorem c5_witness : readU8 ⟨[7], 3⟩ = (0, ⟨[7], 3⟩) :=
  c5_eof_silent ⟨[7], 3⟩ (by norm_num)

/-- Counterexample to the claim as stated: on an empty input stream the
FPAQ decoder's 4 seed reads all hit end of stream, silently yield the
substitute byte 0, and the decoder starts with `x = 0` instead of
aborting. -/
theorem c5_counterexample :
    readU8 ⟨[], 0⟩ = (0, ⟨[], 0⟩) ∧
    (decInit (0 : Nat) ⟨[], 0⟩).x = 0 ∧
    (decInit (0 : Nat) ⟨[], 0⟩).st.pos = 0 := ⟨rfl, rfl, rfl⟩

/-! ### Claim C10 -/

/-- Claim C10: for every bit sequence and any `next_state` table, the
assertion-checked FPAQ pipeline never fails: every `assert!` guard in
`StateMap::p`, `Apm::p` and `Apm::update` holds at each step (so the
checked run equals the unchecked one), and the predictor keeps
`cxt < 256` and `pr < 4096` throughout. -/
theorem c10_fpaq_asserts (ns : Nat → Bool → Nat) (bits : List Bool) :
    fpaqRunChecked ns predFInit bits =
      some (bits.foldl (fun t b => PredF.update ns t b) predFInit) ∧
    (bits.foldl (fun t b => PredF.update ns t b) predFInit).cxt < 256 ∧
    (bits.foldl (fun t b => PredF.update ns t b) predFInit).pr < 4096 := by
  obtain ⟨hrun, hinv⟩ := fpaqRunChecked_inv ns bits predFInit predFInit_inv
  exact ⟨hrun, hinv.2.1, hinv.1⟩

/-! ## `src/src/ari/lpaq1.rs` — the LPAQ1 predictor

As for FPAQ, `next_state` (`src/src/ari/state.rs`, not in `src/`) stays
an explicit parameter `ns`.  LPAQ1's `Apm` is textually identical to
FPAQ's and is shared.  `MEM = 1 << 23`. -/

/-- LPAQ1 reciprocal table `rec[i] = 16384/(i+i+3)` (lpaq1.rs line 94;
1024 entries). -/
def lpaqRec (i : Nat) : Nat := 16384 / (i + i + 3)

/-- LPAQ1 `StateMap` (lpaq1.rs lines 83-87): prediction in the high
22 bits, count in the low 10 bits of each `u32` entry. -/
structure SMapL where
  cxt : Nat
  map : Nat → Nat

/-- `StateMap::new` (lpaq1.rs lines 90-96): all entries `1 << 31`. -/
def smapLInit : SMapL := ⟨0, fun _ => 2 ^ 31⟩

/-- LPAQ1 `StateMap::update` (lpaq1.rs lines 106-119): `count =
entry & 1023`, `pr = entry >> 10`, increment while `count < LIMIT`
(127), `pr_err = ((bit << 22) - pr) >> 3` (an arithmetic shift, i.e.
flooring division), `update = (pr_err * rec[count] & PR_MSK) as u32`
with `PR_MSK = 0xFFFFFC00`, then a wrapping add.  The `i32` product can
overflow and is wrapped (release semantics). -/
def SMapL.update (s : SMapL) (bit : Bool) : SMapL :=
  let e := s.map s.cxt
  let count := e % 1024
  let pr : Int := ((e >>> 10 : Nat) : Int)
  let e1 := if count < 127 then e + 1 else e
  let pr_err : Int := ((if bit then (2 ^ 22 : Int) else 0) - pr) / 2 ^ 3
  let upd : Int := maskPR 1024 (i32wrap (pr_err * (lpaqRec count : Int)))
  ⟨s.cxt, fun j => if j = s.cxt then (e1 + (upd % 2 ^ 32).toNat) % 2 ^ 32 else s.map j⟩

/-- LPAQ1 `StateMap::p` (lpaq1.rs lines 98-103). -/
def SMapL.p (s : SMapL) (bit : Bool) (cxt : Nat) : Nat × SMapL :=
  let s1 := s.update bit
  ((s1.map cxt) >>> 20, ⟨cxt, s1.map⟩)

/-- `(a - b) & (m - 1)` on a wrapping `usize` index, for `m` a power of
two dividing `2^64`: subtraction modulo `m`. -/
def wsub (a b m : Nat) : Nat := (a + (m - b % m)) % m

/-- `u32` rotate right by 16. -/
def rotr16 (x : Nat) : Nat := x / 2 ^ 16 + (x % 2 ^ 16) * 2 ^ 16

/-- The mixed hash index of `HashTable::hash` (lpaq1.rs lines 384-387):
`i = i·123456791 rotr 16 · 234567891` on `u32`, then `(i·16) & (size-16)`
with `size = MEM·2 = 2^24`. -/
def htIdx (c : Nat) : Nat :=
  ((rotr16 ((c * 123456791) % 2 ^ 32) * 234567891) % 2 ^ 32) * 16 &&&
    (2 ^ 24 - 16)

/-- The checksum byte of `HashTable::hash` (lpaq1.rs line 385): the
high byte of the mixed hash. -/
def htChksum (c : Nat) : Nat :=
  ((rotr16 ((c * 123456791) % 2 ^ 32) * 234567891) % 2 ^ 32) >>> 24

/-- `HashTable::hash` (lpaq1.rs lines 383-405) over the table as a
function from byte index to byte: probe `i`, `i^16`, `i^32` for the
checksum; otherwise pick the victim among the three by the byte-1
comparisons, zero its 16 bytes and set byte 0 to the checksum.
Returns the slot index and the (possibly updated) table. -/
def htHash (t : Nat → Nat) (c : Nat) : Nat × (Nat → Nat) :=
  let chksum := htChksum c
  let i := htIdx c
  if t i = chksum then (i, t)
  else if t (i ^^^ 16) = chksum then (i ^^^ 16, t)
  else if t (i ^^^ 32) = chksum then (i ^^^ 32, t)
  else
    let i1 := if t (i + 1) > t ((i + 1) ^^^ 16) ∨ t (i + 1) > t ((i + 1) ^^^ 32)
      then i ^^^ 16 else i
    let i2 := if t (i1 + 1) > t ((i1 + 1) ^^^ 16 ^^^ 32) then i1 ^^^ 48 else i1
    (i2, fun j => if j = i2 then chksum else if i2 < j ∧ j < i2 + 16 then 0 else t j)

/-- A model's `state` pointer: either into `cm1.t0` (the order-0/1
table all pointers start in) or into the shared `HashTable`'s byte
vector `t`. -/
inductive SPtr where
  | tz (i : Nat)
  | ht (i : Nat)

/-- Pointer arithmetic `.add(j)`. -/
def SPtr.add (p : SPtr) (j : Nat) : SPtr :=
  match p with
  | .tz i => .tz (i + j)
  | .ht i => .ht (i + j)

/-- Read through a state pointer, given the two byte stores. -/
def sread (p : SPtr) (t0 ht : Nat → Nat) : Nat :=
  match p with
  | .tz i => t0 i
  | .ht i => ht i

/-- Write through a state pointer, returning both stores. -/
def swrite (p : SPtr) (v : Nat) (t0 ht : Nat → Nat) :
    (Nat → Nat) × (Nat → Nat) :=
  match p with
  | .tz i => (fun j => if j = i then v else t0 j, ht)
  | .ht i => (t0, fun j => if j = i then v else ht j)

/-- One `train` step (lpaq1.rs lines 179-183): each weight moves by
`((input · error) + 0x8000) >> 16` (arithmetic shift), wrapping `i32`. -/
def trainW : List Int → (Nat → Int) → Nat → Int → (Nat → Int)
  | [], w, _, _ => w
  | x :: xs, w, k, err =>
    trainW xs
      (fun j => if j = k then
          i32wrap (w k + i32wrap (i32wrap (x * err) + 0x8000) / 2 ^ 16)
        else w j)
      (k + 1) err

/-- The accumulating `i32` sum of `dot_product` (lpaq1.rs lines
185-188). -/
def dotAcc : Int → List Int → (Nat → Int) → Nat → Int
  | acc, [], _, _ => acc
  | acc, x :: xs, w, k => dotAcc (i32wrap (acc + i32wrap (x * w k))) xs w (k + 1)

/-- `dot_product` (lpaq1.rs lines 185-188): wrapped sum of products,
then an arithmetic shift right by 16. -/
def dot_product (inputs : List Int) (w : Nat → Int) (base : Nat) : Int :=
  dotAcc 0 inputs w base / 2 ^ 16

/-- `Mixer` (lpaq1.rs lines 131-137) with 7 inputs and 80 weight sets;
weights live in a total function indexed by `wht_set + k`. -/
structure Mixer where
  inputs : List Int
  weights : Nat → Int
  wht_set : Nat
  pr : Int

/-- `Mixer::new(7, 80)` (lpaq1.rs lines 141-149). -/
def mixerInit : Mixer := ⟨[], fun _ => 0, 0, 2048⟩

/-- `Mixer::add` (lpaq1.rs lines 152-155). -/
def Mixer.add (m : Mixer) (x : Int) : Mixer :=
  ⟨m.inputs ++ [x], m.weights, m.wht_set, m.pr⟩

/-- `Mixer::set` (lpaq1.rs lines 158-160): `wht_set = cxt * max_in`
with `max_in = 7`. -/
def Mixer.set (m : Mixer) (cxt : Nat) : Mixer :=
  ⟨m.inputs, m.weights, cxt * 7, m.pr⟩

/-- `Mixer::p` (lpaq1.rs lines 163-167): squash of the dot product. -/
def Mixer.p (m : Mixer) : Int × Mixer :=
  let d := dot_product m.inputs m.weights m.wht_set
  (squash d, ⟨m.inputs, m.weights, m.wht_set, squash d⟩)

/-- `Mixer::update` (lpaq1.rs lines 170-175): train on
`error = ((bit << 12) - pr) * 7`, then clear the inputs. -/
def Mixer.update (m : Mixer) (bit : Bool) : Mixer :=
  let err := i32wrap (((if bit then (2 : Int) ^ 12 else 0) - m.pr) * 7)
  ⟨[], trainW m.inputs m.weights m.wht_set err, m.wht_set, m.pr⟩

/-- `MatchModel` (lpaq1.rs lines 219-232) with `n = MEM = 2^23`:
`buf` has `2^22` bytes, `ht` has `2^20` entries,
`buf_end = 2^22 - 1`, `ht_end = 2^20 - 1`. -/
structure MatchModel where
  match_ptr : Nat
  match_len : Nat
  cxt : Nat
  bits : Nat
  hash_s : Nat
  hash_l : Nat
  buf_pos : Nat
  sm : SMapL
  buf : Nat → Nat
  ht : Nat → Nat

/-- `MatchModel::new(MEM)` (lpaq1.rs lines 235-250); the `sm` has
`56 << 8` entries. -/
def mmInit : MatchModel := ⟨0, 0, 1, 0, 0, 0, 0, smapLInit, fun _ => 0, fun _ => 0⟩

/-- The `while` loop of `MatchModel::find_match` (lpaq1.rs lines
335-339).  Each iteration increments `match_len`, so from a start value
below 62 the loop exits by its own condition within the provided fuel
(63 suffices from 0). -/
def findMatchLoop (buf : Nat → Nat) (buf_pos : Nat) :
    Nat → Nat → Nat → Nat → Nat
  | ml, _, _, 0 => ml
  | ml, m1, m2, fuel + 1 =>
    if ml < 62 ∧ m1 ≠ buf_pos ∧ buf m2 = buf m1 then
      findMatchLoop buf buf_pos (ml + 1) (wsub m1 1 (2 ^ 22))
        (wsub m2 1 (2 ^ 22)) fuel
    else ml

/-- `MatchModel::find_match` (lpaq1.rs lines 326-341). -/
def mmFindMatch (m : MatchModel) (hash : Nat) : MatchModel :=
  let mp := m.ht hash
  if mp ≠ m.buf_pos then
    { m with
      match_ptr := mp,
      match_len := findMatchLoop m.buf m.buf_pos m.match_len
        (wsub mp (m.match_len + 1) (2 ^ 22))
        (wsub m.buf_pos (m.match_len + 1) (2 ^ 22)) 63 }
  else { m with match_ptr := mp }

/-- `MatchModel::update` (lpaq1.rs lines 284-322). -/
def MatchModel.update (m : MatchModel) (bit : Bool) : MatchModel :=
  let cxt := m.cxt * 2 + (if bit then 1 else 0)
  let bits := m.bits + 1
  if bits = 8 then
    let hash_l := (m.hash_l * 24 + cxt) % 2 ^ 20
    let hash_s := (m.hash_s * 160 + cxt) % 2 ^ 20
    let buf1 := fun j => if j = m.buf_pos then cxt % 256 else m.buf j
    let buf_pos := (m.buf_pos + 1) % 2 ^ 22
    let m1 : MatchModel := ⟨m.match_ptr, m.match_len, 1, 0, hash_s, hash_l,
      buf_pos, m.sm, buf1, m.ht⟩
    let m2 :=
      if 0 < m1.match_len then
        { m1 with
          match_ptr := (m1.match_ptr + 1) % 2 ^ 22,
          match_len := if m1.match_len < 62 then m1.match_len + 1
            else m1.match_len }
      else mmFindMatch m1 hash_l
    let m3 := if m2.match_len < 2 then mmFindMatch { m2 with match_len := 0 } hash_s
      else m2
    { m3 with ht := fun j => if j = hash_s ∨ j = hash_l then buf_pos else m3.ht j }
  else
    { m with cxt := cxt, bits := bits }

/-- `MatchModel::p` (lpaq1.rs lines 253-281): update, then either a
match-based StateMap context (resetting the match on a context
mismatch) or the order-0 context. -/
def MatchModel.p (m0 : MatchModel) (bit : Bool) : Nat × MatchModel :=
  let m := m0.update bit
  let pr_cxt := (m.buf m.match_ptr + 256) >>> (8 - m.bits)
  if 0 < m.match_len ∧ pr_cxt = m.cxt then
    let pr_bit := (m.buf m.match_ptr >>> (7 - m.bits)) &&& 1
    let c1 := if m.match_len < 16 then m.match_len * 2 + pr_bit
      else (m.match_len >>> 2) * 2 + pr_bit + 24
    let cxt := c1 * 256 + m.buf (wsub m.buf_pos 1 (2 ^ 22))
    let r := m.sm.p bit cxt
    (r.1, { m with sm := r.2 })
  else
    let r := m.sm.p bit m.cxt
    (r.1, { m with match_len := 0, sm := r.2 })

/-- The shared shape of `ContextModelO2/O3/O4/O6` and `WordModel`
(lpaq1.rs lines 463-767): they differ only in the order-context key
(`o2cxt`...`word_cxt`) computed at byte boundaries.  `WordModel` has no
`cxt4` field in the source; its key ignores that argument, which this
generic record then carries unobserved. -/
structure CM where
  bits : Nat
  cxt : Nat
  cxt4 : Nat
  ocxt : Nat
  state : SPtr
  sm : SMapL

/-- Common initial state (`new`): `cxt = 1`, `state` pointing at
`cm1.t0[0]` (set up in `Predictor::new`, lpaq1.rs lines 859-864). -/
def cmInit : CM := ⟨0, 1, 0, 0, .tz 0, smapLInit⟩

/-- `o2cxt = (cxt4 & 0xFFFF) << 5 | 0x57000000` (lpaq1.rs line 504). -/
def keyO2 (_o c4 _c : Nat) : Nat := ((c4 &&& 0xFFFF) <<< 5) ||| 0x57000000

/-- `o3cxt = (cxt4 << 8).wrapping_mul(3)` on `u32` (lpaq1.rs line 566). -/
def keyO3 (_o c4 _c : Nat) : Nat := (((c4 <<< 8) % 2 ^ 32) * 3) % 2 ^ 32

/-- `o4cxt = cxt4.wrapping_mul(5)` (lpaq1.rs line 628). -/
def keyO4 (_o c4 _c : Nat) : Nat := (c4 * 5) % 2 ^ 32

/-- `o6cxt = (o6cxt.wrapping_mul(11 << 5) + cxt * 13) & 0x3FFFFFFF`
(lpaq1.rs line 690). -/
def keyO6 (o _c4 c : Nat) : Nat :=
  (((o * 352) % 2 ^ 32 + c * 13) % 2 ^ 32) &&& 0x3FFFFFFF

/-- `word_cxt` update (lpaq1.rs lines 745-754): letters (uppercase
folded by `+ 32`) extend the hash `(word_cxt + cxt) * (7 << 3)` on
`u32`; anything else resets it to 0. -/
def keyWord (o _c4 c : Nat) : Nat :=
  if 65 ≤ c ∧ c ≤ 90 then ((o + (c + 32)) * 56) % 2 ^ 32
  else if 97 ≤ c ∧ c ≤ 122 then ((o + c) * 56) % 2 ^ 32
  else 0

/-- The common `update(bit)` of the five hashed models (e.g. lpaq1.rs
lines 493-522): write `next_state` through the pointer, extend the
bit context, and at a byte boundary recompute the order context and
rehash; at `bits == 4` rehash at `ocxt + cxt`; otherwise step the
pointer by `(bit + 1) << ((bits & 3) - 1)`. -/
def CM.update (ns : Nat → Bool → Nat) (okey : Nat → Nat → Nat → Nat)
    (cm : CM) (bit : Bool) (t0 ht : Nat → Nat) :
    CM × (Nat → Nat) × (Nat → Nat) :=
  let w := swrite cm.state (ns (sread cm.state t0 ht) bit) t0 ht
  let b := if bit then 1 else 0
  let cxt := cm.cxt * 2 + b
  let bits := cm.bits + 1
  if 256 ≤ cxt then
    let c := cxt - 256
    let cxt4 := ((cm.cxt4 <<< 8) ||| c) % 2 ^ 32
    let ocxt := okey cm.ocxt cxt4 c
    let r := htHash w.2 ocxt
    (⟨0, 1, cxt4, ocxt, .ht (r.1 + 1), cm.sm⟩, w.1, r.2)
  else if bits = 4 then
    let r := htHash w.2 (cm.ocxt + cxt)
    (⟨bits, cxt, cm.cxt4, cm.ocxt, .ht (r.1 + 1), cm.sm⟩, w.1, r.2)
  else
    (⟨bits, cxt, cm.cxt4, cm.ocxt,
      cm.state.add ((b + 1) <<< ((bits &&& 3) - 1)), cm.sm⟩, w.1, w.2)

/-- The common `p(bit)` (e.g. lpaq1.rs lines 486-491): update, then
feed the byte at the new pointer to the StateMap. -/
def CM.p (ns : Nat → Bool → Nat) (okey : Nat → Nat → Nat → Nat)
    (cm : CM) (bit : Bool) (t0 ht : Nat → Nat) :
    Nat × CM × (Nat → Nat) × (Nat → Nat) :=
  let u := CM.update ns okey cm bit t0 ht
  let r := u.1.sm.p bit (sread u.1.state u.2.1 u.2.2)
  (r.1, { u.1 with sm := r.2 }, u.2.1, u.2.2)

/-- `ContextModelO1` (lpaq1.rs lines 411-461): its state pointer always
lives in its private 65536-byte table `t0`, at `o1cxt + cxt`. -/
structure CMO1 where
  bits : Nat
  cxt : Nat
  o1cxt : Nat
  state : Nat
  sm : SMapL

/-- `ContextModelO1::new` (pointer set to `t0[0]` in `Predictor::new`). -/
def cmo1Init : CMO1 := ⟨0, 1, 0, 0, smapLInit⟩

/-- `ContextModelO1::update` (lpaq1.rs lines 439-460): after the bit
step (and byte-boundary reset `o1cxt = cxt << 8`), the pointer is
recomputed as `t0 + o1cxt + cxt`. -/
def CMO1.update (ns : Nat → Bool → Nat) (cm : CMO1) (bit : Bool)
    (t0 : Nat → Nat) : CMO1 × (Nat → Nat) :=
  let t0a := fun j => if j = cm.state then ns (t0 cm.state) bit else t0 j
  let b := if bit then 1 else 0
  let cxt := cm.cxt * 2 + b
  let bits := cm.bits + 1
  if 256 ≤ cxt then
    let c := cxt - 256
    (⟨0, 1, c <<< 8, (c <<< 8) + 1, cm.sm⟩, t0a)
  else
    (⟨bits, cxt, cm.o1cxt, cm.o1cxt + cxt, cm.sm⟩, t0a)

/-- `ContextModelO1::p` (lpaq1.rs lines 432-437). -/
def CMO1.p (ns : Nat → Bool → Nat) (cm : CMO1) (bit : Bool)
    (t0 : Nat → Nat) : Nat × CMO1 × (Nat → Nat) :=
  let u := CMO1.update ns cm bit t0
  let r := u.1.sm.p bit (u.2 u.1.state)
  (r.1, { u.1 with sm := r.2 }, u.2)

/-- `Predictor::order` (lpaq1.rs lines 907-928). -/
def predOrder (len s2 s3 s4 s6 : Nat) : Nat :=
  if len = 0 then
    (if s2 ≠ 0 then 1 else 0) + (if s3 ≠ 0 then 1 else 0) +
    (if s4 ≠ 0 then 1 else 0) + (if s6 ≠ 0 then 1 else 0)
  else
    5 + (if 8 ≤ len then 1 else 0) + (if 12 ≤ len then 1 else 0) +
    (if 16 ≤ len then 1 else 0) + (if 32 ≤ len then 1 else 0)

/-- LPAQ1 `Predictor` (lpaq1.rs lines 825-837), with the two shared
byte stores made explicit: `t0` is `cm1.t0` (which every model's state
pointer initially targets) and `htT` is the shared `HashTable`'s byte
vector. -/
structure PredL where
  pr : Int
  mm : MatchModel
  wm : CM
  cm2 : CM
  cm3 : CM
  cm4 : CM
  cm6 : CM
  cm1 : CMO1
  mxr : Mixer
  apm1 : Apm
  apm2 : Apm
  t0 : Nat → Nat
  htT : Nat → Nat

/-- `Predictor::new` (lpaq1.rs lines 840-866). -/
def predLInit : PredL :=
  ⟨2048, mmInit, cmInit, cmInit, cmInit, cmInit, cmInit, cmo1Init, mixerInit,
    apmInit 256, apmInit 16384, fun _ => 0, fun _ => 0⟩

/-- `Predictor::update` (lpaq1.rs lines 876-903), in source order:
mixer train, the seven model predictions stretched and added (threading
the shared stores through `wm`, `cm1`, `cm2`, `cm3`, `cm4`, `cm6`),
weight-set selection by `order + 10·(o1cxt >> 13)`, the mix, then the
two SSE stages at contexts `cm1.cxt` and `cm1.cxt ^ o1cxt >> 2`. -/
def PredL.update (ns : Nat → Bool → Nat) (s : PredL) (bit : Bool) : PredL :=
  let mx0 := s.mxr.update bit
  let rm := s.mm.p bit
  let mx1 := mx0.add (stretch rm.1)
  let rw := CM.p ns keyWord s.wm bit s.t0 s.htT
  let mx2 := mx1.add (stretch rw.1)
  let r1 := CMO1.p ns s.cm1 bit rw.2.2.1
  let mx3 := mx2.add (stretch r1.1)
  let r2 := CM.p ns keyO2 s.cm2 bit r1.2.2 rw.2.2.2
  let mx4 := mx3.add (stretch r2.1)
  let r3 := CM.p ns keyO3 s.cm3 bit r2.2.2.1 r2.2.2.2
  let mx5 := mx4.add (stretch r3.1)
  let r4 := CM.p ns keyO4 s.cm4 bit r3.2.2.1 r3.2.2.2
  let mx6 := mx5.add (stretch r4.1)
  let r6 := CM.p ns keyO6 s.cm6 bit r4.2.2.1 r4.2.2.2
  let mx7 := mx6.add (stretch r6.1)
  let t0f := r6.2.2.1
  let htf := r6.2.2.2
  let ord := predOrder rm.2.match_len (sread r2.2.1.state t0f htf)
    (sread r3.2.1.state t0f htf) (sread r4.2.1.state t0f htf)
    (sread r6.2.1.state t0f htf)
  let mx8 := mx7.set (ord + 10 * (r1.2.1.o1cxt >>> 13))
  let rp := mx8.p
  let ra := s.apm1.p bit 7 rp.1.toNat r1.2.1.cxt
  let prA : Int := (rp.1 + 3 * (ra.1 : Int)) / 2 ^ 2
  let rb := s.apm2.p bit 7 prA.toNat (r1.2.1.cxt ^^^ (r1.2.1.o1cxt >>> 2))
  let prB : Int := (prA + 3 * (rb.1 : Int)) / 2 ^ 2
  ⟨prB, rm.2, rw.2.1, r2.2.1, r3.2.1, r4.2.1, r6.2.1, r1.2.1, rp.2, ra.2,
    rb.2, t0f, htf⟩

/-- The probability fed to the LPAQ1 coder (`Predictor::p` followed by
the `if p < 2048 { p += 1 }` of `encode_bit`/`decode_bit`). -/
def pLClamp (s : PredL) : Nat := (if s.pr < 2048 then s.pr + 1 else s.pr).toNat

/-- The payload bit stream: each byte MSB-first
(`Encoder::encode_block`, lpaq1.rs lines 986-992). -/
def lpaqBits (F : List Nat) : List Bool := F.flatMap msbBits

/-- `u64::to_le_bytes`. -/
def u64le (x : Nat) : List Nat :=
  [x % 256, (x >>> 8) % 256, (x >>> 16) % 256, (x >>> 24) % 256,
    (x >>> 32) % 256, (x >>> 40) % 256, (x >>> 48) % 256, (x >>> 56) % 256]

/-- `lpaq1_compress` (lpaq1.rs lines 1106-1116) as a byte-list
function.  The input is consumed in buffer-sized chunks of `2^20`
bytes (`BufReader::with_capacity(1 << 20, ..)` in main.rs), so
`count = ⌈|F| / 2^20⌉` and the final block holds the remainder; the
24-byte header `{final_size, base_size, count}` (written at offset 0
via `rewind`) precedes the coder output with its flush. -/
def lpaq1Compress (ns : Nat → Bool → Nat) (F : List Nat) : List Nat :=
  let count := (F.length + 2 ^ 20 - 1) / 2 ^ 20
  let fin := F.length - (count - 1) * 2 ^ 20
  u64le fin ++ u64le (2 ^ 20) ++ u64le count ++
    encTail pLClamp (PredL.update ns) ⟨0, 0xFFFFFFFF, predLInit⟩ (lpaqBits F)

/-- `u64::from_le_bytes` of 8 stream bytes at `off` (`read_u64`). -/
def readLE8 (S : List Nat) (off : Nat) : Nat :=
  S.getD off 0 + S.getD (off + 1) 0 * 2 ^ 8 + S.getD (off + 2) 0 * 2 ^ 16 +
  S.getD (off + 3) 0 * 2 ^ 24 + S.getD (off + 4) 0 * 2 ^ 32 +
  S.getD (off + 5) 0 * 2 ^ 40 + S.getD (off + 6) 0 * 2 ^ 48 +
  S.getD (off + 7) 0 * 2 ^ 56

/-- The byte loop of `Decoder::decode_block` (lpaq1.rs lines
1051-1055): `byte = 1; while byte < 256 { byte += byte + bit }` runs
exactly 8 iterations, then 256 is subtracted. -/
def lpaqByte (bs : List Bool) : Nat :=
  bs.foldl (fun acc b => acc * 2 + (if b then 1 else 0)) 1 - 256

/-- `Decoder::decode_block(n)` (lpaq1.rs lines 1048-1059): decode `n`
bytes of 8 bits each. -/
def decBlockBytes {σ : Type} (pf : σ → Nat) (uf : σ → Bool → σ) :
    DecS σ → Nat → List Nat × DecS σ
  | d, 0 => ([], d)
  | d, n + 1 =>
    let r8 := decodeBits pf uf d 8
    let rest := decBlockBytes pf uf r8.2 n
    (lpaqByte r8.1 :: rest.1, rest.2)

/-- The `for _ in 0..(count - 1)` block loop of `lpaq1_decompress`. -/
def decBlocks {σ : Type} (pf : σ → Nat) (uf : σ → Bool → σ) :
    DecS σ → Nat → Nat → List Nat × DecS σ
  | d, 0, _ => ([], d)
  | d, k + 1, bs =>
    let r := decBlockBytes pf uf d bs
    let rest := decBlocks pf uf r.2 k bs
    (r.1 ++ rest.1, rest.2)

/-- `lpaq1_decompress` (lpaq1.rs lines 1118-1130): read the three
header words, seed `x` with the next 4 bytes, decode `count - 1`
(computed on a wrapping `u64`) blocks of `base_size` bytes and one of
`final_size` bytes. -/
def lpaq1Decompress (ns : Nat → Bool → Nat) (S : List Nat) : List Nat :=
  let fin := readLE8 S 0
  let base := readLE8 S 8
  let count := readLE8 S 16
  let d0 := decInit predLInit ⟨S, 24⟩
  let r1 := decBlocks pLClamp (PredL.update ns) d0 ((count + 2 ^ 64 - 1) % 2 ^ 64)
    base
  r1.1 ++ (decBlockBytes pLClamp (PredL.update ns) r1.2 fin).1

/-! ### LPAQ1 predictor bounds -/

/-- The LPAQ1 reachability invariant: prediction in `[0, 4095]` and all
APM entries `u16`. -/
def PredLInv (s : PredL) : Prop :=
  0 ≤ s.pr ∧ s.pr ≤ 4095 ∧ (∀ j, s.apm1.bins j < 2 ^ 16) ∧
  (∀ j, s.apm2.bins j < 2 ^ 16)

theorem predLInit_inv : PredLInv predLInit :=
  ⟨by decide, by decide, apmInit_bins 256, apmInit_bins 16384⟩

theorem pLClamp_lt {s : PredL} (h : PredLInv s) : pLClamp s < 4096 := by
  obtain ⟨h0, h1, -, -⟩ := h
  unfold pLClamp
  split
  · omega
  · omega

theorem Mixer.p_fst_nonneg (m : Mixer) : 0 ≤ (Mixer.p m).1 :=
  squash_nonneg _

theorem Mixer.p_le_4095 (m : Mixer) : (Mixer.p m).1 ≤ 4095 :=
  squash_le_4095 _

theorem sse_bound (a : Nat) {p : Int} (hp0 : 0 ≤ p) (hp : p ≤ 4095)
    (ha : a ≤ 4095) :
    0 ≤ (p + 3 * (a : Int)) / 2 ^ 2 ∧ (p + 3 * (a : Int)) / 2 ^ 2 ≤ 4095 := by
  constructor
  · exact Int.ediv_nonneg (by omega) (by norm_num)
  · have h3 : p + 3 * (a : Int) ≤ 16380 := by omega
    have := Int.ediv_le_ediv (show (0 : Int) < 2 ^ 2 by norm_num) h3
    simpa using this

theorem predL_update_inv (ns : Nat → Bool → Nat) {s : PredL} (bit : Bool)
    (h : PredLInv s) : PredLInv (PredL.update ns s bit) := by
  obtain ⟨-, -, h1, h2⟩ := h
  unfold PredL.update
  dsimp only
  refine ⟨?_, ?_, Apm.p_bins h1 _ _ _ _, Apm.p_bins h2 _ _ _ _⟩
  · refine (sse_bound _ ?_ ?_ (Apm.p_fst_le h2 _ _ _ _)).1
    · exact (sse_bound _ (Mixer.p_fst_nonneg _) (Mixer.p_le_4095 _)
        (Apm.p_fst_le h1 _ _ _ _)).1
    · exact (sse_bound _ (Mixer.p_fst_nonneg _) (Mixer.p_le_4095 _)
        (Apm.p_fst_le h1 _ _ _ _)).2
  · refine (sse_bound _ ?_ ?_ (Apm.p_fst_le h2 _ _ _ _)).2
    · exact (sse_bound _ (Mixer.p_fst_nonneg _) (Mixer.p_le_4095 _)
        (Apm.p_fst_le h1 _ _ _ _)).1
    · exact (sse_bound _ (Mixer.p_fst_nonneg _) (Mixer.p_le_4095 _)
        (Apm.p_fst_le h1 _ _ _ _)).2

/-! ### LPAQ1 framing lemmas -/

theorem lpaqBits_cons (c : Nat) (F : List Nat) :
    lpaqBits (c :: F) = msbBits c ++ lpaqBits F := by
  simp [lpaqBits]

theorem lpaqBits_len (F : List Nat) : (lpaqBits F).length = 8 * F.length := by
  induction F with
  | nil => rfl
  | cons c F ih =>
    rw [lpaqBits_cons, List.length_append, msbBits_len, ih, List.length_cons]
    ring

theorem lpaqByte_msb : ∀ c < 256, lpaqByte (msbBits c) = c := by decide

theorem decBlockBytes_len {σ : Type} (pf : σ → Nat) (uf : σ → Bool → σ) :
    ∀ (n : Nat) (d : DecS σ), (decBlockBytes pf uf d n).1.length = n := by
  intro n
  induction n with
  | zero => intro d; rfl
  | succ m ih =>
    intro d
    show (lpaqByte _ :: (decBlockBytes pf uf _ m).1).length = m + 1
    rw [List.length_cons, ih]

theorem decBlocks_len {σ : Type} (pf : σ → Nat) (uf : σ → Bool → σ) :
    ∀ (k : Nat) (d : DecS σ) (bs : Nat),
    (decBlocks pf uf d k bs).1.length = k * bs := by
  intro k
  induction k with
  | zero => intro d bs; simp [decBlocks]
  | succ m ih =>
    intro d bs
    show ((decBlockBytes pf uf d bs).1 ++ (decBlocks pf uf _ m bs).1).length
      = (m + 1) * bs
    rw [List.length_append, decBlockBytes_len, ih]
    ring

theorem decBlockBytes_spec {σ : Type} (pf : σ → Nat) (uf : σ → Bool → σ) :
    ∀ (F : List Nat) (d : DecS σ), (∀ b ∈ F, b < 256) →
    (decodeBits pf uf d (8 * F.length)).1 = lpaqBits F →
    (decBlockBytes pf uf d F.length).1 = F := by
  intro F
  induction F with
  | nil => intro d _ _; rfl
  | cons c F ih =>
    intro d hbytes hdec
    rw [show 8 * (c :: F).length = 8 + 8 * F.length from by
      rw [List.length_cons]; ring, decodeBits_add, lpaqBits_cons] at hdec
    obtain ⟨e1, e2⟩ := List.append_inj hdec (by rw [decodeBits_len, msbBits_len])
    show lpaqByte (decodeBits pf uf d 8).1 ::
      (decBlockBytes pf uf (decodeBits pf uf d 8).2 F.length).1 = c :: F
    rw [e1, lpaqByte_msb c (hbytes c (by simp)),
      ih _ (fun b hb => hbytes b (by simp [hb])) e2]

theorem u64le_bytes (a : Nat) : ∀ b ∈ u64le a, b < 256 := by
  intro b hb
  simp only [u64le, List.mem_cons, List.not_mem_nil, or_false] at hb
  rcases hb with rfl | rfl | rfl | rfl | rfl | rfl | rfl | rfl <;>
    exact Nat.mod_lt _ (by norm_num)

theorem readLE8_hdr0 (a b c : Nat) (h : a < 2 ^ 64) (tail : List Nat) :
    readLE8 (u64le a ++ u64le b ++ u64le c ++ tail) 0 = a := by
  show a % 256 + (a >>> 8) % 256 * 2 ^ 8 + (a >>> 16) % 256 * 2 ^ 16 +
    (a >>> 24) % 256 * 2 ^ 24 + (a >>> 32) % 256 * 2 ^ 32 +
    (a >>> 40) % 256 * 2 ^ 40 + (a >>> 48) % 256 * 2 ^ 48 +
    (a >>> 56) % 256 * 2 ^ 56 = a
  simp only [Nat.shiftRight_eq_div_pow]
  omega

theorem readLE8_hdr8 (a b c : Nat) (h : b < 2 ^ 64) (tail : List Nat) :
    readLE8 (u64le a ++ u64le b ++ u64le c ++ tail) 8 = b := by
  show b % 256 + (b >>> 8) % 256 * 2 ^ 8 + (b >>> 16) % 256 * 2 ^ 16 +
    (b >>> 24) % 256 * 2 ^ 24 + (b >>> 32) % 256 * 2 ^ 32 +
    (b >>> 40) % 256 * 2 ^ 40 + (b >>> 48) % 256 * 2 ^ 48 +
    (b >>> 56) % 256 * 2 ^ 56 = b
  simp only [Nat.shiftRight_eq_div_pow]
  omega

theorem readLE8_hdr16 (a b c : Nat) (h : c < 2 ^ 64) (tail : List Nat) :
    readLE8 (u64le a ++ u64le b ++ u64le c ++ tail) 16 = c := by
  show c % 256 + (c >>> 8) % 256 * 2 ^ 8 + (c >>> 16) % 256 * 2 ^ 16 +
    (c >>> 24) % 256 * 2 ^ 24 + (c >>> 32) % 256 * 2 ^ 32 +
    (c >>> 40) % 256 * 2 ^ 40 + (c >>> 48) % 256 * 2 ^ 48 +
    (c >>> 56) % 256 * 2 ^ 56 = c
  simp only [Nat.shiftRight_eq_div_pow]
  omega

/-- Claim C2 (amended): the LPAQ1 round-trip for non-empty files of at
most one buffer (`2^20` bytes), for any `next_state` table. -/
theorem c2_lpaq1_roundtrip (ns : Nat → Bool → Nat) (F : List Nat)
    (h1 : 1 ≤ F.length) (h2 : F.length ≤ 2 ^ 20)
    (hbytes : ∀ b ∈ F, b < 256) :
    lpaq1Decompress ns (lpaq1Compress ns F) = F := by
  have hcount : (F.length + 2 ^ 20 - 1) / 2 ^ 20 = 1 := by omega
  unfold lpaq1Compress
  dsimp only
  rw [hcount, show F.length - (1 - 1) * 2 ^ 20 = F.length from by omega]
  unfold lpaq1Decompress
  dsimp only
  have e1 : readLE8 (u64le F.length ++ u64le (2 ^ 20) ++ u64le 1 ++
      encTail pLClamp (PredL.update ns) ⟨0, 0xFFFFFFFF, predLInit⟩
        (lpaqBits F)) 0 = F.length := readLE8_hdr0 _ _ _ (by omega) _
  have e2 : readLE8 (u64le F.length ++ u64le (2 ^ 20) ++ u64le 1 ++
      encTail pLClamp (PredL.update ns) ⟨0, 0xFFFFFFFF, predLInit⟩
        (lpaqBits F)) 8 = 2 ^ 20 := readLE8_hdr8 _ _ _ (by norm_num) _
  have e3 : readLE8 (u64le F.length ++ u64le (2 ^ 20) ++ u64le 1 ++
      encTail pLClamp (PredL.update ns) ⟨0, 0xFFFFFFFF, predLInit⟩
        (lpaqBits F)) 16 = 1 := readLE8_hdr16 _ _ _ (by norm_num) _
  have e4 : ((1 : Nat) + 2 ^ 64 - 1) % 2 ^ 64 = 0 := by norm_num
  rw [e1, e2, e3, e4]
  show ([] : List Nat) ++ _ = F
  rw [List.nil_append]
  have hpre : ∀ x ∈ u64le F.length ++ u64le (2 ^ 20) ++ u64le 1, x < 256 := by
    intro x hx
    rcases List.mem_append.mp hx with hx | hx
    · rcases List.mem_append.mp hx with hx | hx
      · exact u64le_bytes _ x hx
      · exact u64le_bytes _ x hx
    · exact u64le_bytes _ x hx
  have hdec := decode_encoded_at pLClamp (PredL.update ns) PredLInv
    (fun s hs => pLClamp_lt hs) (fun s b hs => predL_update_inv ns b hs)
    (u64le F.length ++ u64le (2 ^ 20) ++ u64le 1) hpre (lpaqBits F)
    predLInit predLInit_inv
  rw [show (u64le F.length ++ u64le (2 ^ 20) ++ u64le 1).length = 24 from rfl,
    lpaqBits_len] at hdec
  exact decBlockBytes_spec pLClamp (PredL.update ns) F _ hbytes hdec

theorem c2_lpaq1_roundtrip_witness :
    lpaq1Decompress (fun _ _ => 0) (lpaq1Compress (fun _ _ => 0) [0]) = [0] :=
  c2_lpaq1_roundtrip (fun _ _ => 0) [0] (by norm_num) (by norm_num) (by decide)

/-- Counterexample to claim C2 as stated: on the empty input the header
records `count = 0`, the decompressor's `for _ in 0..(count - 1)` loop
underflows on `u64` and asks for `2^64 - 1` blocks of `2^20` bytes, so
the output is not the empty file. -/
theorem c2_counterexample :
    lpaq1Decompress (fun _ _ => 0) (lpaq1Compress (fun _ _ => 0) []) ≠ [] := by
  intro h
  have hl := congrArg List.length h
  unfold lpaq1Compress at hl
  dsimp only at hl
  rw [show ((List.length ([] : List Nat) + 2 ^ 20 - 1) / 2 ^ 20 : Nat) = 0
    from by norm_num] at hl
  rw [show (List.length ([] : List Nat) - (0 - 1) * 2 ^ 20 : Nat) = 0
    from by norm_num] at hl
  unfold lpaq1Decompress at hl
  dsimp only at hl
  have e1 : readLE8 (u64le 0 ++ u64le (2 ^ 20) ++ u64le 0 ++
      encTail pLClamp (PredL.update (fun _ _ => 0)) ⟨0, 0xFFFFFFFF, predLInit⟩
        (lpaqBits [])) 0 = 0 := readLE8_hdr0 _ _ _ (by norm_num) _
  have e2 : readLE8 (u64le 0 ++ u64le (2 ^ 20) ++ u64le 0 ++
      encTail pLClamp (PredL.update (fun _ _ => 0)) ⟨0, 0xFFFFFFFF, predLInit⟩
        (lpaqBits [])) 8 = 2 ^ 20 := readLE8_hdr8 _ _ _ (by norm_num) _
  have e3 : readLE8 (u64le 0 ++ u64le (2 ^ 20) ++ u64le 0 ++
      encTail pLClamp (PredL.update (fun _ _ => 0)) ⟨0, 0xFFFFFFFF, predLInit⟩
        (lpaqBits [])) 16 = 0 := readLE8_hdr16 _ _ _ (by norm_num) _
  rw [e1, e2, e3] at hl
  rw [List.length_append, decBlocks_len, decBlockBytes_len] at hl
  simp at hl

/-! ### Claim C6: the shared StateMap update formula -/

/-- Modelled from the spec (§4.2): the parameterised single-entry
StateMap update `n = e & mask_n`, `pr = e >> shift_p`, increment while
`n < LIMIT`, `err = (bit << shift_err) - pr`, `delta = err · rec[n] &
PR_MSK`, wrapping add — extended with an error shift `shift_div`
applied to `err` (the spec's formula is the instance `shift_div = 0`). -/
def genSMUpdate (mask_n LIMIT shift_p shift_err mskMod shift_div : Nat)
    (rec : Nat → Nat) (e : Nat) (bit : Bool) : Nat :=
  let n := e &&& mask_n
  let pr : Int := ((e >>> shift_p : Nat) : Int)
  let e1 := if n < LIMIT then e + 1 else e
  let err : Int := ((if bit then (2 ^ shift_err : Int) else 0) - pr) / 2 ^ shift_div
  let delta := maskPR mskMod (i32wrap (err * (rec n : Int)))
  (e1 + (delta % 2 ^ 32).toNat) % 2 ^ 32

/-- Claim C6 (amended): the FPAQ and LPAQ1 StateMap updates are both
instances of the one parameterised formula only after it is extended
with an error shift: FPAQ uses `(mask 511, LIMIT 127, shifts 14/18,
PR_MSK clearing 9 bits, no error shift)` and LPAQ1 uses `(mask 1023,
LIMIT 127, shifts 10/22, PR_MSK clearing 10 bits, error shift 3)`. -/
theorem c6_statemap_updates :
    (∀ (s : SMapF) (bit : Bool), SMapF.update s bit =
      ⟨s.cxt, fun j => if j = s.cxt then
        genSMUpdate 511 127 14 18 512 0 fpaqRec (s.map s.cxt) bit
      else s.map j⟩) ∧
    (∀ (s : SMapL) (bit : Bool), SMapL.update s bit =
      ⟨s.cxt, fun j => if j = s.cxt then
        genSMUpdate 1023 127 10 22 1024 3 lpaqRec (s.map s.cxt) bit
      else s.map j⟩) := by
  constructor
  · intro s bit
    unfold SMapF.update genSMUpdate
    dsimp only
    have hm : (s.map s.cxt) &&& 511 = (s.map s.cxt) % 512 := by
      have h9 := Nat.and_pow_two_sub_one_eq_mod (s.map s.cxt) 9
      norm_num at h9
      exact h9
    rw [hm]
    norm_num
  · intro s bit
    unfold SMapL.update genSMUpdate
    dsimp only
    have hm : (s.map s.cxt) &&& 1023 = (s.map s.cxt) % 1024 := by
      have h10 := Nat.and_pow_two_sub_one_eq_mod (s.map s.cxt) 10
      norm_num at h10
      exact h10
    rw [hm]

/-- Counterexample to claim C6 as stated: the LPAQ1 update is not an
instance of the spec's shared formula (without the error shift); at
the initial entry `1 << 31` with `bit = 1` the two updates differ. -/
theorem c6_counterexample :
    (SMapL.update ⟨0, fun _ => 2 ^ 31⟩ true).map 0 ≠
      genSMUpdate 1023 127 10 22 1024 0 lpaqRec (2 ^ 31) true := by decide

/-! ### Claim C7: the HashTable probe -/

/-- Claim C7: `HashTable::hash` probes `i`, `i^16`, `i^32` in order for
the checksum byte and returns a hit unmodified; on a miss it evicts the
victim, zeroes its slot and writes the checksum; in every case the
returned slot's byte 0 holds the checksum. -/
theorem c7_hashtable_probe (t : Nat → Nat) (c : Nat) :
    ((htHash t c).2) ((htHash t c).1) = htChksum c ∧
    (t (htIdx c) = htChksum c → htHash t c = (htIdx c, t)) ∧
    (t (htIdx c) ≠ htChksum c → t (htIdx c ^^^ 16) = htChksum c →
      htHash t c = (htIdx c ^^^ 16, t)) ∧
    (t (htIdx c) ≠ htChksum c → t (htIdx c ^^^ 16) ≠ htChksum c →
      t (htIdx c ^^^ 32) = htChksum c → htHash t c = (htIdx c ^^^ 32, t)) := by
  by_cases h1 : t (htIdx c) = htChksum c
  · have he : htHash t c = (htIdx c, t) := by
      unfold htHash
      rw [if_pos h1]
    refine ⟨?_, fun _ => he, fun hn _ => absurd h1 hn, fun hn _ _ => absurd h1 hn⟩
    rw [he]
    exact h1
  · by_cases h2 : t (htIdx c ^^^ 16) = htChksum c
    · have he : htHash t c = (htIdx c ^^^ 16, t) := by
        unfold htHash
        rw [if_neg h1, if_pos h2]
      refine ⟨?_, fun hc => absurd hc h1, fun _ _ => he,
        fun _ hn _ => absurd h2 hn⟩
      rw [he]
      exact h2
    · by_cases h3 : t (htIdx c ^^^ 32) = htChksum c
      · have he : htHash t c = (htIdx c ^^^ 32, t) := by
          unfold htHash
          rw [if_neg h1, if_neg h2, if_pos h3]
        refine ⟨?_, fun hc => absurd hc h1, fun _ hc => absurd hc h2,
          fun _ _ _ => he⟩
        rw [he]
        exact h3
      · refine ⟨?_, fun hc => absurd hc h1, fun _ hc => absurd hc h2,
          fun _ _ hc => absurd hc h3⟩
        unfold htHash
        rw [if_neg h1, if_neg h2, if_neg h3]
        dsimp only
        rw [if_pos rfl]

theorem c7_witness :
    htHash (fun j => if j = 32 then 0 else 1) 0 =
      (htIdx 0 ^^^ 32, fun j => if j = 32 then 0 else 1) :=
  (c7_hashtable_probe (fun j => if j = 32 then 0 else 1) 0).2.2.2
    (by decide) (by decide) (by decide)

/-! ### Claim C9: the match length invariant -/

theorem findMatchLoop_le (buf : Nat → Nat) (bp : Nat) :
    ∀ (fuel ml m1 m2 : Nat), ml ≤ 62 →
    findMatchLoop buf bp ml m1 m2 fuel ≤ 62 := by
  intro fuel
  induction fuel with
  | zero => intro ml m1 m2 h; exact h
  | succ n ih =>
    intro ml m1 m2 h
    simp only [findMatchLoop]
    split
    · next hc => exact ih (ml + 1) _ _ (by omega)
    · exact h

theorem mmFindMatch_le (m : MatchModel) (hash : Nat) (h : m.match_len ≤ 62) :
    (mmFindMatch m hash).match_len ≤ 62 := by
  unfold mmFindMatch
  dsimp only
  split
  · exact findMatchLoop_le _ _ _ _ _ _ h
  · exact h

theorem ite_ml (c : Prop) [Decidable c] (a b : MatchModel)
    (ha : a.match_len ≤ 62) (hb : b.match_len ≤ 62) :
    (if c then a else b).match_len ≤ 62 := by
  split
  · exact ha
  · exact hb

theorem mm_update_le {m : MatchModel} (h : m.match_len ≤ 62) (bit : Bool) :
    (m.update bit).match_len ≤ 62 := by
  unfold MatchModel.update
  dsimp only
  split_ifs <;> (try dsimp only) <;>
    first
      | exact h
      | exact mmFindMatch_le _ _ (Nat.zero_le 62)
      | exact mmFindMatch_le _ _ h
      | omega

/-- Claim C9: after every `MatchModel::p` step from a state with
`match_len ≤ 62`, `match_len` stays in `[0, 62]`; on a predicted-bit
context mismatch the match is reset to 0; and at a byte boundary an
active match grows by exactly one, saturating at `MAX_LEN = 62`. -/
theorem c9_matchmodel (m : MatchModel) (bit : Bool) (h : m.match_len ≤ 62) :
    (m.p bit).2.match_len ≤ 62 ∧
    (((m.update bit).buf (m.update bit).match_ptr + 256) >>>
        (8 - (m.update bit).bits) ≠ (m.update bit).cxt →
      (m.p bit).2.match_len = 0) ∧
    (m.bits = 7 → 0 < m.match_len →
      (m.update bit).match_len =
        if m.match_len < 62 then m.match_len + 1 else m.match_len) := by
  refine ⟨?_, ?_, ?_⟩
  · have hu := mm_update_le h bit
    unfold MatchModel.p
    dsimp only
    split
    · exact hu
    · exact Nat.zero_le 62
  · intro hne
    unfold MatchModel.p
    dsimp only
    rw [if_neg (fun hc => hne hc.2)]
  · intro hb hml
    unfold MatchModel.update
    dsimp only
    rw [if_pos (show m.bits + 1 = 8 by omega)]
    dsimp only
    rw [if_pos hml]
    dsimp only
    rw [if_neg (by split <;> omega)]

theorem c9_witness : (mmInit.p false).2.match_len ≤ 62 :=
  (c9_matchmodel mmInit false (by decide)).1
